import Mathlib

/-!
Verification of the max-flow core of `Level 4/escape-pods.py`.

The capacity matrix `corridors` is only ever read through double indexing,
so inside the engine we embed it as a function `Nat → Nat → Int` (out-of-range
reads default to `0`, matching `List.getD`).  The mutable flow matrix
`bunny_traffic` is embedded as a function `Nat → Nat → Int` threaded through
the loop, starting from the all-zero matrix.  The list-surgery functions
(`removed_indices`, `compressed_paths`) are embedded directly on
`List (List Int)`.
-/

namespace EscapePods

/-- Residual capacity of an edge: `corridors[u][v] - bunny_traffic[u][v]`. -/
def residual (c f : Nat → Nat → Int) (u v : Nat) : Int := c u v - f u v

/-- The inner `for new_room in range(len(corridors))` loop of `find_bunny_path`:
all one-step extensions of the partial path `p` that do not revisit a node on
`p` and have strictly positive residual capacity, in ascending room order. -/
def extensionsOf (N : Nat) (c f : Nat → Nat → Int) (p : List Nat) :
    List (List Nat) :=
  ((List.range N).filter
    (fun r => decide (r ∉ p) && decide (0 < residual c f (p.getLastD 0) r))).map
    (fun r => p ++ [r])

/-- `current_room == escape_pods_room`: the dequeued path's last room equals
`N - 1`.  The comparison is done on integers, exactly as Python does (for
`N = 0` the escape-pods room is `-1` and the test is never true). -/
def endsAtSink (N : Nat) (p : List Nat) : Prop :=
  ((p.getLastD 0 : Int) = (N : Int) - 1)

instance (N : Nat) (p : List Nat) : Decidable (endsAtSink N p) :=
  inferInstanceAs (Decidable (_ = _))

/-- The BFS loop of `find_bunny_path`, with explicit fuel.  The queue is a
FIFO list of partial paths; a dequeued path ending at the escape-pods room
is returned.  Fuel `0` gives up with `none`; we later show the fuel used by
`find_bunny_path` always suffices. -/
def bfsAux (N : Nat) (c f : Nat → Nat → Int) :
    Nat → List (List Nat) → Option (List Nat)
  | 0, _ => none
  | _ + 1, [] => none
  | fuel + 1, p :: rest =>
      if endsAtSink N p then some p
      else bfsAux N c f fuel (rest ++ extensionsOf N c f p)

/-- `find_bunny_path(corridors, bunny_traffic)`: BFS from the queue `[[0]]`. -/
def find_bunny_path (N : Nat) (c f : Nat → Nat → Int) : Option (List Nat) :=
  bfsAux N c f ((N + 1) ^ (N + 1)) [[0]]

/-- The consecutive edges of a path, i.e. the pairs `(previous_room, room)`
visited by the `for room_index, room in enumerate(path)` loops. -/
def pathEdges (p : List Nat) : List (Nat × Nat) := p.zip p.tail

/-- The bottleneck computation exactly as in the source: start from
`float('Inf')` (modelled as `⊤ : WithTop ℤ`) and take the running minimum of
the residual capacities along the path. -/
def bottleneckW (c f : Nat → Nat → Int) (p : List Nat) : WithTop Int :=
  ((pathEdges p).map (fun e => ((residual c f e.1 e.2 : Int) : WithTop Int))).foldl
    min ⊤

/-- The integer value of the bottleneck when the path has at least one edge
(the value actually added to the flow matrix; see `bottleneckW_eq_coe`). -/
def bottleneckI (c f : Nat → Nat → Int) (p : List Nat) : Int :=
  match (pathEdges p).map (fun e => residual c f e.1 e.2) with
  | [] => 0
  | r :: rs => rs.foldl min r

/-- One pointwise update of the flow matrix. -/
def upd (f : Nat → Nat → Int) (u v : Nat) (d : Int) : Nat → Nat → Int :=
  fun x y => if x = u ∧ y = v then f x y + d else f x y

/-- `bunny_traffic[previous_room][room] += b; bunny_traffic[room][previous_room] -= b`. -/
def augEdge (b : Int) (f : Nat → Nat → Int) (e : Nat × Nat) : Nat → Nat → Int :=
  upd (upd f e.1 e.2 b) e.2 e.1 (-b)

/-- The augmentation pass of `maximum_bunnies_rescuable`: apply the bottleneck
`b` along every consecutive edge of the path. -/
def augment (f : Nat → Nat → Int) (p : List Nat) (b : Int) : Nat → Nat → Int :=
  (pathEdges p).foldl (augEdge b) f

/-- The `while True` loop of `maximum_bunnies_rescuable`, with explicit fuel:
find an augmenting path; if none, stop; otherwise augment by the bottleneck
and repeat. -/
def bfLoop (N : Nat) (c : Nat → Nat → Int) :
    Nat → (Nat → Nat → Int) → (Nat → Nat → Int)
  | 0, f => f
  | fuel + 1, f =>
      match find_bunny_path N c f with
      | none => f
      | some p => bfLoop N c fuel (augment f p (bottleneckI c f p))

/-- Fuel sufficient for the engine loop: one more than the total capacity
leaving the source row. -/
def engineFuel (N : Nat) (c : Nat → Nat → Int) : Nat :=
  (∑ u ∈ Finset.range N, (c 0 u).toNat) + 1

/-- The flow matrix at the end of the engine loop, starting from all zeros. -/
def finalFlow (N : Nat) (c : Nat → Nat → Int) : Nat → Nat → Int :=
  bfLoop N c (engineFuel N c) (fun _ _ => 0)

/-- Read a capacity matrix entry: `corridors[u][v]`. -/
def matEntry (m : List (List Int)) (u v : Nat) : Int := (m.getD u []).getD v 0

/-- `maximum_bunnies_rescuable(corridors)`: run the Edmonds-Karp loop, then
sum the traffic entering the escape-pods room. -/
def maximum_bunnies_rescuable (corridors : List (List Int)) : Int :=
  let N := corridors.length
  let f := finalFlow N (matEntry corridors)
  ∑ room ∈ Finset.range N, f room (N - 1)

/-- `removed_indices(matrix, indices)`: delete the listed rows and columns. -/
def removed_indices (matrix : List (List Int)) (indices : List Nat) :
    List (List Int) :=
  ((List.range matrix.length).filter (fun row => decide (row ∉ indices))).map
    (fun row =>
      ((List.range matrix.length).filter (fun col => decide (col ∉ indices))).map
        (fun col => matEntry matrix row col))

/-- `compressed_paths(entrances, exits, path)`: the graph reducer.  Returns
the bunnies rescued immediately (source→sink bypass capacity) and the reduced
matrix with synthetic super-source row 0 and super-sink last row/column. -/
def compressed_paths (entrances exits : List Nat) (path : List (List Int)) :
    Int × List (List Int) :=
  let starting_bunnies :=
    entrances.foldl (fun acc e => List.zipWith (· + ·) acc (path.getD e []))
      (List.replicate path.length (0 : Int))
  let bunnies_rescued_immediately :=
    (((starting_bunnies.enum).filter (fun ib => decide (ib.1 ∈ exits))).map
      Prod.snd).sum
  let escape_pods :=
    (List.range path.length).map
      (fun index => (exits.map (fun e => matEntry path index e)).sum)
  let starting_bunnies2 :=
    (((List.range path.length).filter
      (fun i => decide (i ∉ entrances ++ exits))).map
      (fun i => starting_bunnies.getD i 0))
  let escape_pods2 :=
    (((List.range path.length).filter
      (fun i => decide (i ∉ entrances ++ exits))).map
      (fun i => escape_pods.getD i 0))
  let new_path := removed_indices path (entrances ++ exits)
  let new_path2 :=
    (new_path.enum).map (fun ir => 0 :: ir.2 ++ [escape_pods2.getD ir.1 0])
  let new_path3 := ((0 : Int) :: starting_bunnies2 ++ [0]) :: new_path2
  let new_path4 := new_path3 ++ [List.replicate (new_path3.getD 0 []).length 0]
  (bunnies_rescued_immediately, new_path4)

/-- `solution(entrances, exits, path)`: bypass flow plus engine result. -/
def solution (entrances exits : List Nat) (path : List (List Int)) : Int :=
  let r := compressed_paths entrances exits path
  r.1 + maximum_bunnies_rescuable r.2

/-! ### Basic facts about `pathEdges` -/

lemma pathEdges_length (p : List Nat) : (pathEdges p).length = p.length - 1 := by
  simp [pathEdges]

lemma mem_pathEdges {p : List Nat} {e : Nat × Nat} :
    e ∈ pathEdges p ↔ ∃ (i : Nat) (h : i + 1 < p.length),
      p.get ⟨i, by omega⟩ = e.1 ∧ p.get ⟨i + 1, h⟩ = e.2 := by
  rw [pathEdges, List.mem_iff_getElem]
  constructor
  · rintro ⟨i, hi, hget⟩
    have hi' : i + 1 < p.length := by
      simp only [List.length_zip, List.length_tail] at hi; omega
    refine ⟨i, hi', ?_, ?_⟩
    · have := @List.getElem_zip _ _ p p.tail i hi
      rw [this] at hget
      simpa [List.get_eq_getElem] using congrArg Prod.fst hget
    · have := @List.getElem_zip _ _ p p.tail i hi
      rw [this] at hget
      have h2 := congrArg Prod.snd hget
      simp only at h2
      rw [List.getElem_tail] at h2
      simpa [List.get_eq_getElem] using h2
  · rintro ⟨i, hi, h1, h2⟩
    have hlen : i < (p.zip p.tail).length := by
      simp only [List.length_zip, List.length_tail]; omega
    refine ⟨i, hlen, ?_⟩
    rw [List.getElem_zip, List.getElem_tail]
    simp only [List.get_eq_getElem] at h1 h2
    rw [h1, h2]

lemma pathEdges_nodup {p : List Nat} (h : p.Nodup) : (pathEdges p).Nodup := by
  rw [List.nodup_iff_injective_get]
  intro ⟨i, hi⟩ ⟨j, hj⟩ hij
  simp only [List.get_eq_getElem, pathEdges] at hij
  have hi' : i < (p.zip p.tail).length := hi
  have hj' : j < (p.zip p.tail).length := hj
  rw [List.getElem_zip, List.getElem_zip] at hij
  have h1 := congrArg Prod.fst hij
  simp only at h1
  have hinj := List.nodup_iff_injective_get.mp h
  have hilen : i < p.length := by
    simp only [pathEdges, List.length_zip, List.length_tail] at hi; omega
  have hjlen : j < p.length := by
    simp only [pathEdges, List.length_zip, List.length_tail] at hj; omega
  have : (⟨i, hilen⟩ : Fin p.length) = ⟨j, hjlen⟩ := by
    apply hinj
    simp only [List.get_eq_getElem]
    exact h1
  simp only [Fin.mk.injEq] at this
  exact Fin.ext this

lemma count_eq_one_of_nodup_of_mem {α : Type} [BEq α] [LawfulBEq α]
    {l : List α} {e : α} (h : l.Nodup) (he : e ∈ l) : l.count e = 1 := by
  induction l with
  | nil => simp at he
  | cons a t ih =>
      rw [List.count_cons]
      rcases List.mem_cons.mp he with rfl | hm
      · rw [List.count_eq_zero.mpr (List.nodup_cons.mp h).1]
        simp
      · have hne : a ≠ e := by rintro rfl; exact (List.nodup_cons.mp h).1 hm
        rw [ih (List.nodup_cons.mp h).2 hm]
        simp [hne]

lemma count_pathEdges_eq_one {p : List Nat} {e : Nat × Nat} (hnd : p.Nodup)
    (he : e ∈ pathEdges p) : (pathEdges p).count e = 1 :=
  count_eq_one_of_nodup_of_mem (pathEdges_nodup hnd) he

lemma swap_not_mem_pathEdges {p : List Nat} {e : Nat × Nat} (hnd : p.Nodup)
    (he : e ∈ pathEdges p) : (e.2, e.1) ∉ pathEdges p := by
  intro hmem
  rw [mem_pathEdges] at he hmem
  obtain ⟨i, hi, hi1, hi2⟩ := he
  obtain ⟨j, hj, hj1, hj2⟩ := hmem
  simp only [List.get_eq_getElem] at hi1 hi2 hj1 hj2
  have hinj := List.nodup_iff_injective_get.mp hnd
  have e1 : (⟨i + 1, hi⟩ : Fin p.length) = ⟨j, by omega⟩ := by
    apply hinj; simp only [List.get_eq_getElem]; rw [hi2, hj1]
  have hji : j = i + 1 := by simp only [Fin.mk.injEq] at e1; omega
  subst hji
  have e2 : (⟨i, by omega⟩ : Fin p.length) = ⟨i + 1 + 1, hj⟩ := by
    apply hinj; simp only [List.get_eq_getElem]; rw [hi1, hj2]
  simp only [Fin.mk.injEq] at e2
  omega

lemma fst_ne_snd_of_mem_pathEdges {p : List Nat} {e : Nat × Nat} (hnd : p.Nodup)
    (he : e ∈ pathEdges p) : e.1 ≠ e.2 := by
  rw [mem_pathEdges] at he
  obtain ⟨i, hi, hi1, hi2⟩ := he
  simp only [List.get_eq_getElem] at hi1 hi2
  intro hcon
  have hinj := List.nodup_iff_injective_get.mp hnd
  have : (⟨i, by omega⟩ : Fin p.length) = ⟨i + 1, hi⟩ := by
    apply hinj; simp only [List.get_eq_getElem]; rw [hi1, hi2, hcon]
  simp only [Fin.mk.injEq] at this
  omega

lemma map_snd_pathEdges (p : List Nat) : (pathEdges p).map Prod.snd = p.tail :=
  List.map_snd_zip _ _ (by simp [List.length_tail])

lemma map_fst_pathEdges : ∀ p : List Nat, (pathEdges p).map Prod.fst = p.dropLast
  | [] => rfl
  | [_] => rfl
  | a :: b :: t => by
      have ih := map_fst_pathEdges (b :: t)
      simp only [pathEdges] at ih ⊢
      simpa [List.zip] using ih

/-! ### Folded minimum -/

lemma foldl_min_le_init : ∀ (l : List Int) (a : Int), l.foldl min a ≤ a
  | [], _ => le_refl _
  | x :: l, a => le_trans (foldl_min_le_init l (min a x)) (min_le_left _ _)

lemma foldl_min_le_mem {x : Int} : ∀ {l : List Int} (a : Int), x ∈ l → l.foldl min a ≤ x
  | [], _, h => by simp at h
  | y :: l, a, h => by
      rcases List.mem_cons.mp h with rfl | h
      · exact le_trans (foldl_min_le_init l (min a x)) (min_le_right _ _)
      · exact foldl_min_le_mem (min a y) h

lemma foldl_min_eq_init_or_mem : ∀ (l : List Int) (a : Int),
    l.foldl min a = a ∨ l.foldl min a ∈ l
  | [], _ => Or.inl rfl
  | x :: l, a => by
      rw [List.foldl_cons]
      rcases foldl_min_eq_init_or_mem l (min a x) with h | h
      · rcases le_total a x with h' | h'
        · left; rw [h, min_eq_left h']
        · right; rw [h, min_eq_right h']; exact List.mem_cons_self _ _
      · right; exact List.mem_cons_of_mem _ h

/-! ### The bottleneck -/

lemma bottleneckI_le {c f : Nat → Nat → Int} {p : List Nat} {e : Nat × Nat}
    (he : e ∈ pathEdges p) : bottleneckI c f p ≤ residual c f e.1 e.2 := by
  have hmem : residual c f e.1 e.2 ∈ (pathEdges p).map (fun e => residual c f e.1 e.2) :=
    List.mem_map_of_mem _ he
  rcases hl : (pathEdges p).map (fun e => residual c f e.1 e.2) with _ | ⟨r, rs⟩
  · rw [hl] at hmem; simp at hmem
  · have hb : bottleneckI c f p = rs.foldl min r := by
      unfold bottleneckI; rw [hl]
    rw [hb]
    rw [hl] at hmem
    rcases List.mem_cons.mp hmem with h | h
    · rw [← h]; exact foldl_min_le_init _ _
    · exact foldl_min_le_mem _ h

lemma bottleneckI_mem {c f : Nat → Nat → Int} {p : List Nat} (hp : pathEdges p ≠ []) :
    ∃ e ∈ pathEdges p, bottleneckI c f p = residual c f e.1 e.2 := by
  rcases hl : (pathEdges p).map (fun e => residual c f e.1 e.2) with _ | ⟨r, rs⟩
  · exact absurd (List.map_eq_nil_iff.mp hl) hp
  · have hb : bottleneckI c f p = rs.foldl min r := by
      unfold bottleneckI; rw [hl]
    have : rs.foldl min r ∈ r :: rs := by
      rcases foldl_min_eq_init_or_mem rs r with h | h
      · rw [h]; exact List.mem_cons_self _ _
      · exact List.mem_cons_of_mem _ h
    rw [← hl] at this
    obtain ⟨e, hmem, heq⟩ := List.mem_map.mp this
    exact ⟨e, hmem, hb ▸ heq.symm⟩

lemma bottleneckI_pos {c f : Nat → Nat → Int} {p : List Nat} (hp : pathEdges p ≠ [])
    (hpos : ∀ e ∈ pathEdges p, 0 < residual c f e.1 e.2) : 0 < bottleneckI c f p := by
  obtain ⟨e, hmem, heq⟩ := bottleneckI_mem (c := c) (f := f) hp
  rw [heq]; exact hpos e hmem

/-! ### Pointwise description of the augmentation pass -/

lemma augEdge_apply (b : Int) (f : Nat → Nat → Int) (e : Nat × Nat) (x y : Nat) :
    augEdge b f e x y =
      f x y + (if (x, y) = e then b else 0) - (if (y, x) = e then b else 0) := by
  obtain ⟨u, v⟩ := e
  simp only [augEdge, upd, Prod.mk.injEq]
  split_ifs with h1 h2 h3 h4 h5 h6 h7 <;> omega

lemma foldl_augEdge_apply (b : Int) :
    ∀ (es : List (Nat × Nat)) (f : Nat → Nat → Int) (x y : Nat),
      es.foldl (augEdge b) f x y =
        f x y + b * es.count (x, y) - b * es.count (y, x)
  | [], f, x, y => by simp
  | e :: es, f, x, y => by
      rw [List.foldl_cons, foldl_augEdge_apply b es, augEdge_apply,
        List.count_cons, List.count_cons]
      simp only [beq_iff_eq]
      by_cases h1 : (x, y) = e <;> by_cases h2 : (y, x) = e
      · rw [if_pos h1, if_pos h2, if_pos h1.symm, if_pos h2.symm]
        push_cast; ring
      · rw [if_pos h1, if_neg h2, if_pos h1.symm, if_neg (fun h => h2 h.symm)]
        push_cast; ring
      · rw [if_neg h1, if_pos h2, if_neg (fun h => h1 h.symm), if_pos h2.symm]
        push_cast; ring
      · rw [if_neg h1, if_neg h2, if_neg (fun h => h1 h.symm), if_neg (fun h => h2 h.symm)]
        push_cast; ring

lemma augment_apply (f : Nat → Nat → Int) (p : List Nat) (b : Int) (x y : Nat) :
    augment f p b x y =
      f x y + b * (pathEdges p).count (x, y) - b * (pathEdges p).count (y, x) :=
  foldl_augEdge_apply b (pathEdges p) f x y

lemma augment_skew {f : Nat → Nat → Int} (p : List Nat) (b : Int)
    (hskew : ∀ u v, f u v = - f v u) (u v : Nat) :
    augment f p b u v = - augment f p b v u := by
  rw [augment_apply, augment_apply, hskew u v]; ring

lemma augment_bounded {c f : Nat → Nat → Int} {p : List Nat}
    (hnd : p.Nodup) (hbound : ∀ u v, f u v ≤ c u v)
    (hb0 : 0 ≤ bottleneckI c f p) (u v : Nat) :
    augment f p (bottleneckI c f p) u v ≤ c u v := by
  rw [augment_apply]
  by_cases hf : (u, v) ∈ pathEdges p
  · have h1 : (pathEdges p).count (u, v) = 1 := count_pathEdges_eq_one hnd hf
    have h2 : (pathEdges p).count (v, u) = 0 := by
      rw [List.count_eq_zero]
      exact swap_not_mem_pathEdges hnd hf
    rw [h1, h2]
    have := bottleneckI_le (c := c) (f := f) hf
    simp only [residual] at this
    push_cast
    omega
  · have h1 : (pathEdges p).count (u, v) = 0 := List.count_eq_zero.mpr hf
    rw [h1]
    have h2 : (pathEdges p).count (v, u) * bottleneckI c f p ≥ 0 :=
      mul_nonneg (by positivity) hb0
    have := hbound u v
    push_cast
    nlinarith [h2]

lemma augment_bottleneck_zero {c f : Nat → Nat → Int} {p : List Nat}
    (hnd : p.Nodup) (hp : pathEdges p ≠ []) :
    ∃ e ∈ pathEdges p,
      residual c (augment f p (bottleneckI c f p)) e.1 e.2 = 0 := by
  obtain ⟨e, hmem, heq⟩ := bottleneckI_mem (c := c) (f := f) hp
  refine ⟨e, hmem, ?_⟩
  unfold residual
  rw [augment_apply]
  rw [count_pathEdges_eq_one hnd hmem,
    List.count_eq_zero.mpr (swap_not_mem_pathEdges hnd hmem)]
  simp only [residual] at heq
  push_cast
  omega

lemma pathEdges_ne_nil_of_two_le {p : List Nat} (h : 2 ≤ p.length) :
    pathEdges p ≠ [] := by
  intro hcon
  have := pathEdges_length p
  rw [hcon] at this
  simp at this
  omega

/-- C5: an augmentation step of the flow augmenter, applied to a
skew-symmetric flow matrix with non-negative residual capacities and an
augmenting path (distinct nodes, at least one edge, strictly positive
residual on every consecutive edge), yields a flow matrix that is again
skew-symmetric with all residual capacities non-negative, and the residual
capacity of the path's bottleneck edge becomes exactly zero. -/
theorem claim_C5_augment_invariants (c f : Nat → Nat → Int) (p : List Nat)
    (hskew : ∀ u v, f u v = - f v u)
    (hbound : ∀ u v, f u v ≤ c u v)
    (hnd : p.Nodup) (hlen : 2 ≤ p.length)
    (hpos : ∀ e ∈ pathEdges p, 0 < residual c f e.1 e.2) :
    (∀ u v, augment f p (bottleneckI c f p) u v
      = - augment f p (bottleneckI c f p) v u)
    ∧ (∀ u v, augment f p (bottleneckI c f p) u v ≤ c u v)
    ∧ ∃ e ∈ pathEdges p,
        residual c (augment f p (bottleneckI c f p)) e.1 e.2 = 0 := by
  have hne : pathEdges p ≠ [] := pathEdges_ne_nil_of_two_le hlen
  have hb0 : 0 ≤ bottleneckI c f p := le_of_lt (bottleneckI_pos hne hpos)
  exact ⟨augment_skew p _ hskew, augment_bounded hnd hbound hb0,
    augment_bottleneck_zero hnd hne⟩

/-- Witness for C5 at the concrete capacity matrix `[[0,5],[0,0]]`, the zero
flow and the path `[0, 1]`. -/
theorem claim_C5_witness :
    (∀ u v, augment (fun _ _ => 0) [0, 1]
        (bottleneckI (matEntry [[0, 5], [0, 0]]) (fun _ _ => 0) [0, 1]) u v
      = - augment (fun _ _ => 0) [0, 1]
        (bottleneckI (matEntry [[0, 5], [0, 0]]) (fun _ _ => 0) [0, 1]) v u)
    ∧ (∀ u v, augment (fun _ _ => 0) [0, 1]
        (bottleneckI (matEntry [[0, 5], [0, 0]]) (fun _ _ => 0) [0, 1]) u v
      ≤ matEntry [[0, 5], [0, 0]] u v)
    ∧ ∃ e ∈ pathEdges [0, 1],
        residual (matEntry [[0, 5], [0, 0]])
          (augment (fun _ _ => 0) [0, 1]
            (bottleneckI (matEntry [[0, 5], [0, 0]]) (fun _ _ => 0) [0, 1]))
          e.1 e.2 = 0 :=
  claim_C5_augment_invariants (matEntry [[0, 5], [0, 0]]) (fun _ _ => 0) [0, 1]
    (fun _ _ => by simp)
    (fun u v => by
      rcases u with _ | _ | u <;> rcases v with _ | _ | v <;>
        simp [matEntry, List.getD])
    (by decide) (by decide) (by decide)

/-- C2: `solution` returns the specified values on the three scenario
inputs, and on the third (bypass-only) scenario the max-flow engine performs
zero augmenting-path iterations: the very first path search on the reduced
matrix already reports no path. -/
theorem claim_C2_scenarios :
    solution [0] [3] [[0, 7, 0, 0], [0, 0, 6, 0], [0, 0, 0, 8], [9, 0, 0, 0]] = 6
    ∧ solution [0, 1] [4, 5]
        [[0, 0, 4, 6, 0, 0], [0, 0, 5, 2, 0, 0], [0, 0, 0, 0, 4, 4],
         [0, 0, 0, 0, 6, 6], [0, 0, 0, 0, 0, 0], [0, 0, 0, 0, 0, 0]] = 16
    ∧ solution [0] [1] [[0, 5], [0, 0]] = 5
    ∧ find_bunny_path (compressed_paths [0] [1] [[0, 5], [0, 0]]).2.length
        (matEntry (compressed_paths [0] [1] [[0, 5], [0, 0]]).2)
        (fun _ _ => 0) = none := by
  refine ⟨by decide, by decide, by decide, by decide⟩

/-- C9 counterexample: `solution` performs no input validation.  On the
malformed input whose source set and sink set are both `[0]` (a node in both
S and T) it does not reject the input: the normal computation path runs and
produces the numeric value `5`. -/
theorem claim_C9_counterexample : solution [0] [0] [[5]] = 5 := by decide

/-- C9 amended: `solution` raises no `InvalidInput` error; a node belonging
to both the source set and the sink set is processed by the normal
computation path and yields a numeric result (for `S = T = [0]` on the 1×1
matrix `[[a]]`, the direct bypass sum counts the diagonal entry and the
engine contributes zero, so the result is `a`). -/
theorem claim_C9_amended (a : Int) : solution [0] [0] [[a]] = a := by
  have hengine : maximum_bunnies_rescuable [[0, 0], [0, 0]] = 0 := by decide
  show (compressed_paths [0] [0] [[a]]).1
    + maximum_bunnies_rescuable (compressed_paths [0] [0] [[a]]).2 = a
  have h2 : (compressed_paths [0] [0] [[a]]).2 = [[0, 0], [0, 0]] := rfl
  rw [h2, hengine]
  show (0 + a) + 0 + 0 = a
  ring

/-- C6 counterexample: on the 1×1 square matrix `[[5]]` of non-negative
capacities, the path finder succeeds with the edgeless path `[0]` and the
augmentation step leaves the flow unchanged, so the `while True` loop of
`maximum_bunnies_rescuable` repeats the same state forever and never
terminates. -/
theorem claim_C6_counterexample :
    find_bunny_path 1 (matEntry [[5]]) (fun _ _ => 0) = some [0]
    ∧ augment (fun _ _ => 0) [0]
        (bottleneckI (matEntry [[5]]) (fun _ _ => 0) [0]) = (fun _ _ => 0) :=
  ⟨by decide, rfl⟩

/-! ### The breadth-first level structure of the path search

`levels N c f k` is the list of all partial paths the BFS of
`find_bunny_path` can hold after `k` extension rounds, in queue order:
level `0` is the initial queue `[[0]]` and each next level extends every
path of the previous level by all admissible rooms in ascending order. -/

def levels (N : Nat) (c f : Nat → Nat → Int) : Nat → List (List Nat)
  | 0 => [[0]]
  | k + 1 => (levels N c f k).flatMap (extensionsOf N c f)

lemma mem_extensionsOf {N : Nat} {c f : Nat → Nat → Int} {p q : List Nat} :
    q ∈ extensionsOf N c f p ↔
      ∃ r, r < N ∧ r ∉ p ∧ 0 < residual c f (p.getLastD 0) r ∧ q = p ++ [r] := by
  simp only [extensionsOf, List.mem_map, List.mem_filter, List.mem_range,
    Bool.and_eq_true, decide_eq_true_eq]
  constructor
  · rintro ⟨r, ⟨⟨hr, hnp, hres⟩, rfl⟩⟩
    exact ⟨r, hr, hnp, hres, rfl⟩
  · rintro ⟨r, hr, hnp, hres, rfl⟩
    exact ⟨r, ⟨⟨hr, hnp, hres⟩, rfl⟩⟩

lemma length_of_mem_levels {N : Nat} {c f : Nat → Nat → Int} :
    ∀ {k : Nat} {p : List Nat}, p ∈ levels N c f k → p.length = k + 1
  | 0, p, h => by
      simp only [levels, List.mem_singleton] at h
      subst h; rfl
  | k + 1, p, h => by
      simp only [levels, List.mem_flatMap] at h
      obtain ⟨q, hq, hext⟩ := h
      obtain ⟨r, _, _, _, rfl⟩ := mem_extensionsOf.mp hext
      have := length_of_mem_levels hq
      simp [this]

/-- The properties that characterise membership in a BFS level: the path
starts at room `0`, revisits no room, stays inside the room range, and each
consecutive corridor has strictly positive residual capacity. -/
def goodPath (N : Nat) (c f : Nat → Nat → Int) (p : List Nat) : Prop :=
  p.head? = some 0 ∧ p.Nodup ∧ (∀ x ∈ p, x < N)
    ∧ List.Chain' (fun u v => 0 < residual c f u v) p

lemma mem_levels_iff {N : Nat} (hN : 1 ≤ N) {c f : Nat → Nat → Int} :
    ∀ {k : Nat} {p : List Nat},
      p ∈ levels N c f k ↔ p.length = k + 1 ∧ goodPath N c f p := by
  intro k
  induction k with
  | zero =>
      intro p
      simp only [levels, List.mem_singleton]
      constructor
      · rintro rfl
        refine ⟨rfl, rfl, by simp, by simpa using hN, by simp⟩
      · rintro ⟨hlen, hhead, -, -, -⟩
        rcases p with _ | ⟨a, t⟩
        · simp at hlen
        · rcases t with _ | ⟨b, t⟩
          · simp only [List.head?_cons, Option.some.injEq] at hhead
            rw [hhead]
          · simp at hlen
  | succ k ih =>
      intro p
      simp only [levels, List.mem_flatMap]
      constructor
      · rintro ⟨q, hq, hext⟩
        obtain ⟨r, hrN, hrq, hres, rfl⟩ := mem_extensionsOf.mp hext
        obtain ⟨hlen, hhead, hnd, hmem, hchain⟩ := ih.mp hq
        have hqne : q ≠ [] := by
          intro hcon; rw [hcon] at hlen; simp at hlen
        refine ⟨by simp [hlen], ?_, ?_, ?_, ?_⟩
        · rcases q with _ | ⟨a, t⟩
          · exact absurd rfl hqne
          · simpa using hhead
        · exact hnd.append (List.nodup_singleton r)
            (by simpa [List.disjoint_singleton] using hrq)
        · intro x hx
          rcases List.mem_append.mp hx with h | h
          · exact hmem x h
          · rw [List.mem_singleton.mp h]; exact hrN
        · rw [List.chain'_append]
          refine ⟨hchain, List.chain'_singleton r, ?_⟩
          intro x hx y hy
          simp only [List.head?_cons, Option.mem_def, Option.some.injEq] at hy
          subst hy
          rw [List.getLastD_eq_getLast?] at hres
          rw [Option.mem_def] at hx
          rw [hx] at hres
          simpa using hres
      · rintro ⟨hlen, hhead, hnd, hmem, hchain⟩
        have hpne : p ≠ [] := by
          intro hcon; rw [hcon] at hlen; simp at hlen
        set q := p.dropLast with hq
        have hsplit : q ++ [p.getLast hpne] = p :=
          List.dropLast_append_getLast hpne
        have hqlen : q.length = k + 1 := by
          have h1 : q.length = p.length - 1 := by
            rw [hq]; exact List.length_dropLast p
          omega
        have hqne : q ≠ [] := by
          intro hcon; rw [hcon] at hqlen; simp at hqlen
        have hgood : q ∈ levels N c f k := by
          refine ih.mpr ⟨hqlen, ?_, ?_, ?_, ?_⟩
          · rw [← hsplit] at hhead
            rcases q with _ | ⟨a, t⟩
            · exact absurd rfl hqne
            · simpa using hhead
          · exact hnd.sublist (List.dropLast_sublist p)
          · intro x hx
            exact hmem x ((List.dropLast_sublist p).mem hx)
          · rw [← hsplit, List.chain'_append] at hchain
            exact hchain.1
        refine ⟨q, hgood, mem_extensionsOf.mpr
          ⟨p.getLast hpne, ?_, ?_, ?_, hsplit.symm⟩⟩
        · exact hmem _ (List.getLast_mem hpne)
        · rw [← hsplit] at hnd
          intro hcon
          exact (List.nodup_append.mp hnd).2.2 hcon (List.mem_singleton_self _)
        · rw [← hsplit, List.chain'_append] at hchain
          obtain ⟨-, -, hlast⟩ := hchain
          rw [List.getLastD_eq_getLast?]
          rcases hql : q.getLast? with _ | a
          · exact absurd (List.getLast?_eq_none_iff.mp hql) hqne
          · simpa using hlast a (by rw [hql]; rfl) _ rfl

/-! ### The BFS queue processes the levels in order -/

lemma bfsAux_cons (N : Nat) (c f : Nat → Nat → Int) (fuel : Nat)
    (p : List Nat) (rest : List (List Nat)) :
    bfsAux N c f (fuel + 1) (p :: rest)
      = if endsAtSink N p then some p
        else bfsAux N c f fuel (rest ++ extensionsOf N c f p) := rfl

lemma bfsAux_block (N : Nat) (c f : Nat → Nat → Int) :
    ∀ (L rest : List (List Nat)) (fuel : Nat),
      (∀ p ∈ L, ¬ endsAtSink N p) →
      bfsAux N c f (L.length + fuel) (L ++ rest)
        = bfsAux N c f fuel (rest ++ L.flatMap (extensionsOf N c f))
  | [], rest, fuel, _ => by simp
  | p :: L, rest, fuel, h => by
      have h1 : (p :: L).length + fuel = (L.length + fuel) + 1 := by
        simp only [List.length_cons]; omega
      rw [h1, List.cons_append, bfsAux_cons,
        if_neg (h p (List.mem_cons_self ..)), List.append_assoc,
        bfsAux_block N c f L (rest ++ extensionsOf N c f p) fuel
          (fun q hq => h q (List.mem_cons_of_mem _ hq)),
        List.flatMap_cons, List.append_assoc]

lemma bfsAux_found (N : Nat) (c f : Nat → Nat → Int) :
    ∀ (L₁ : List (List Nat)) {p : List Nat} (L₂ rest : List (List Nat))
      (fuel : Nat),
      (∀ q ∈ L₁, ¬ endsAtSink N q) → endsAtSink N p →
      bfsAux N c f (L₁.length + 1 + fuel) ((L₁ ++ p :: L₂) ++ rest) = some p
  | [], p, L₂, rest, fuel, _, hp => by
      have h1 : ([] : List (List Nat)).length + 1 + fuel = fuel + 1 := by
        simp only [List.length_nil]; omega
      rw [h1, List.nil_append, List.cons_append, bfsAux_cons, if_pos hp]
  | q :: L₁, p, L₂, rest, fuel, h, hp => by
      have h1 : (q :: L₁).length + 1 + fuel = (L₁.length + 1 + fuel) + 1 := by
        simp only [List.length_cons]; omega
      have h2 : ((q :: L₁) ++ p :: L₂) ++ rest
          = q :: ((L₁ ++ p :: L₂) ++ rest) := by simp
      rw [h1, h2, bfsAux_cons, if_neg (h q (List.mem_cons_self ..)),
        List.append_assoc]
      exact bfsAux_found N c f L₁ L₂ (rest ++ extensionsOf N c f q) fuel
        (fun x hx => h x (List.mem_cons_of_mem _ hx)) hp

lemma bfsAux_levels (N : Nat) (c f : Nat → Nat → Int) :
    ∀ (K : Nat),
      (∀ k, k < K → ∀ p ∈ levels N c f k, ¬ endsAtSink N p) → ∀ (fuel : Nat),
      bfsAux N c f ((∑ k ∈ Finset.range K, (levels N c f k).length) + fuel)
          [[0]]
        = bfsAux N c f fuel (levels N c f K)
  | 0, _, fuel => by simp [levels]
  | K + 1, h, fuel => by
      rw [Finset.sum_range_succ]
      have h2 : (∑ k ∈ Finset.range K, (levels N c f k).length)
          + (levels N c f K).length + fuel
          = (∑ k ∈ Finset.range K, (levels N c f k).length)
            + ((levels N c f K).length + fuel) := by omega
      rw [h2, bfsAux_levels N c f K (fun k hk => h k (by omega)) _]
      have h3 := bfsAux_block N c f (levels N c f K) [] fuel (h K (by omega))
      rw [List.append_nil] at h3
      rw [h3, List.nil_append]
      rfl

/-! ### Fuel accounting -/

lemma length_le_of_nodup_of_lt {N : Nat} {p : List Nat} (hnd : p.Nodup)
    (hmem : ∀ x ∈ p, x < N) : p.length ≤ N := by
  have hsub : p.toFinset ⊆ Finset.range N := by
    intro x hx
    rw [List.mem_toFinset] at hx
    exact Finset.mem_range.mpr (hmem x hx)
  have hcard : p.toFinset.card = p.length := List.toFinset_card_of_nodup hnd
  have := Finset.card_le_card hsub
  rw [hcard, Finset.card_range] at this
  exact this

lemma levels_at_N_eq_nil {N : Nat} (hN : 1 ≤ N) (c f : Nat → Nat → Int) :
    levels N c f N = [] := by
  rw [List.eq_nil_iff_forall_not_mem]
  intro p hp
  obtain ⟨hlen, -, hnd, hmem, -⟩ := (mem_levels_iff hN).mp hp
  have := length_le_of_nodup_of_lt hnd hmem
  omega

lemma length_extensionsOf_le (N : Nat) (c f : Nat → Nat → Int) (p : List Nat) :
    (extensionsOf N c f p).length ≤ N := by
  unfold extensionsOf
  rw [List.length_map]
  calc (List.filter _ (List.range N)).length
      ≤ (List.range N).length := List.length_filter_le ..
    _ = N := List.length_range N

lemma levels_length_le (N : Nat) (c f : Nat → Nat → Int) :
    ∀ k, (levels N c f k).length ≤ N ^ k
  | 0 => by simp [levels]
  | k + 1 => by
      show ((levels N c f k).flatMap (extensionsOf N c f)).length ≤ N ^ (k + 1)
      rw [List.length_flatMap]
      have h1 : ∀ x ∈ (levels N c f k).map
          (List.length ∘ extensionsOf N c f), x ≤ N := by
        intro x hx
        obtain ⟨p, -, rfl⟩ := List.mem_map.mp hx
        exact length_extensionsOf_le N c f p
      calc ((levels N c f k).map (List.length ∘ extensionsOf N c f)).sum
          ≤ ((levels N c f k).map (List.length ∘ extensionsOf N c f)).length
            • N := List.sum_le_card_nsmul _ _ h1
        _ = (levels N c f k).length * N := by rw [List.length_map, smul_eq_mul]
        _ ≤ N ^ k * N := Nat.mul_le_mul_right N (levels_length_le N c f k)
        _ = N ^ (k + 1) := (pow_succ N k).symm

lemma geom_sum_lt {x : Nat} (hx : 2 ≤ x) :
    ∀ n, (∑ k ∈ Finset.range n, x ^ k) < x ^ n
  | 0 => by simp
  | n + 1 => by
      rw [Finset.sum_range_succ, pow_succ]
      have h1 := geom_sum_lt hx n
      nlinarith [pow_pos (by omega : 0 < x) n]

lemma sum_levels_length_lt {N : Nat} (hN : 1 ≤ N) (c f : Nat → Nat → Int)
    {K : Nat} (hK : K ≤ N) :
    (∑ k ∈ Finset.range K, (levels N c f k).length) + 1 ≤ (N + 1) ^ (N + 1) := by
  have h1 : (∑ k ∈ Finset.range K, (levels N c f k).length)
      ≤ ∑ k ∈ Finset.range K, (N + 1) ^ k := by
    apply Finset.sum_le_sum
    intro k _
    calc (levels N c f k).length ≤ N ^ k := levels_length_le N c f k
      _ ≤ (N + 1) ^ k := Nat.pow_le_pow_left (by omega) k
  have h2 : (∑ k ∈ Finset.range K, (N + 1) ^ k)
      ≤ ∑ k ∈ Finset.range N, (N + 1) ^ k := by
    apply Finset.sum_le_sum_of_subset
    exact Finset.range_subset.mpr hK
  have h3 : (∑ k ∈ Finset.range N, (N + 1) ^ k) < (N + 1) ^ N :=
    geom_sum_lt (by omega) N
  have h4 : (N + 1) ^ N ≤ (N + 1) ^ (N + 1) :=
    Nat.pow_le_pow_right (by omega) (by omega)
  omega

/-! ### Characterisation of `find_bunny_path` -/

lemma find_eq_none_of_no_sink {N : Nat} (hN : 1 ≤ N) {c f : Nat → Nat → Int}
    (h : ∀ k, ∀ p ∈ levels N c f k, ¬ endsAtSink N p) :
    find_bunny_path N c f = none := by
  unfold find_bunny_path
  have hbig := sum_levels_length_lt hN c f (le_refl N)
  obtain ⟨rem, hrem⟩ : ∃ rem, (N + 1) ^ (N + 1)
      = (∑ k ∈ Finset.range N, (levels N c f k).length) + (rem + 1) :=
    ⟨(N + 1) ^ (N + 1)
      - (∑ k ∈ Finset.range N, (levels N c f k).length) - 1, by omega⟩
  rw [hrem, bfsAux_levels N c f N (fun k _ => h k) (rem + 1),
    levels_at_N_eq_nil hN]
  rfl

lemma find_eq_some_of_first {N : Nat} (hN : 1 ≤ N) {c f : Nat → Nat → Int}
    {k : Nat} {L₁ L₂ : List (List Nat)} {p : List Nat}
    (hbefore : ∀ j, j < k → ∀ q ∈ levels N c f j, ¬ endsAtSink N q)
    (hsplit : levels N c f k = L₁ ++ p :: L₂)
    (hL₁ : ∀ q ∈ L₁, ¬ endsAtSink N q) (hp : endsAtSink N p) :
    find_bunny_path N c f = some p := by
  have hpmem : p ∈ levels N c f k := by
    rw [hsplit]; exact List.mem_append_right _ (List.mem_cons_self ..)
  obtain ⟨hlen, -, hnd, hmem, -⟩ := (mem_levels_iff hN).mp hpmem
  have hkN : k < N := by
    have := length_le_of_nodup_of_lt hnd hmem
    omega
  have hbig := sum_levels_length_lt hN c f (by omega : k + 1 ≤ N)
  rw [Finset.sum_range_succ] at hbig
  have hlevlen : (levels N c f k).length = L₁.length + 1 + L₂.length := by
    rw [hsplit]; simp; omega
  obtain ⟨rem, hrem⟩ : ∃ rem, (N + 1) ^ (N + 1)
      = (∑ j ∈ Finset.range k, (levels N c f j).length)
        + (L₁.length + 1 + rem) := by
    refine ⟨(N + 1) ^ (N + 1)
      - (∑ j ∈ Finset.range k, (levels N c f j).length) - L₁.length - 1, ?_⟩
    omega
  unfold find_bunny_path
  rw [hrem, bfsAux_levels N c f k hbefore _]
  have h4 := bfsAux_found N c f L₁ L₂ [] rem hL₁ hp
  rw [List.append_nil] at h4
  rw [hsplit]
  exact h4

lemma exists_first_split {α : Type} (Q : α → Prop) :
    ∀ (L : List α), (∃ x ∈ L, Q x) →
      ∃ L₁ x L₂, L = L₁ ++ x :: L₂ ∧ Q x ∧ ∀ y ∈ L₁, ¬ Q y
  | [], h => by simp at h
  | a :: t, h => by
      by_cases ha : Q a
      · exact ⟨[], a, t, rfl, ha, by simp⟩
      · have ht : ∃ x ∈ t, Q x := by
          obtain ⟨x, hx, hQ⟩ := h
          rcases List.mem_cons.mp hx with rfl | hx
          · exact absurd hQ ha
          · exact ⟨x, hx, hQ⟩
        obtain ⟨L₁, x, L₂, heq, hQ, hL₁⟩ := exists_first_split Q t ht
        refine ⟨a :: L₁, x, L₂, by rw [heq]; rfl, hQ, ?_⟩
        intro y hy
        rcases List.mem_cons.mp hy with rfl | hy
        · exact ha
        · exact hL₁ y hy

/-! ### Levels are lexicographically sorted (ties broken by ascending room) -/

lemma lex_append_right (p : List Nat) {a b : Nat} (h : a < b) :
    List.Lex (· < ·) (p ++ [a]) (p ++ [b]) := by
  induction p with
  | nil => exact List.Lex.rel h
  | cons x p ih => exact List.Lex.cons ih

lemma lex_append_of_lex : ∀ (p q : List Nat), p.length = q.length →
    List.Lex (· < ·) p q → ∀ (a b : Nat),
      List.Lex (· < ·) (p ++ [a]) (q ++ [b])
  | [], _, hlen, hlex, _, _ => by
      cases hlex with
      | nil => simp at hlen
  | x :: p, q, hlen, hlex, a, b => by
      cases hlex with
      | rel h => exact List.Lex.rel h
      | cons h =>
          exact List.Lex.cons
            (lex_append_of_lex p _ (by simpa using hlen) h a b)

lemma pairwise_lex_extensionsOf (N : Nat) (c f : Nat → Nat → Int)
    (p : List Nat) :
    (extensionsOf N c f p).Pairwise (List.Lex (· < ·)) := by
  unfold extensionsOf
  rw [List.pairwise_map]
  exact ((List.pairwise_lt_range N).filter _).imp (lex_append_right p)

lemma pairwise_flatMap_of {α β : Type} {R : β → β → Prop} {g : α → List β}
    {S : α → α → Prop} :
    ∀ {l : List α}, l.Pairwise S → (∀ a ∈ l, (g a).Pairwise R) →
      (∀ a ∈ l, ∀ b ∈ l, S a b → ∀ x ∈ g a, ∀ y ∈ g b, R x y) →
      (l.flatMap g).Pairwise R
  | [], _, _, _ => List.Pairwise.nil
  | a :: l, hS, hin, hcross => by
      rw [List.flatMap_cons, List.pairwise_append]
      refine ⟨hin a (List.mem_cons_self ..), ?_, ?_⟩
      · exact pairwise_flatMap_of (hS.sublist (List.sublist_cons_self ..))
          (fun x hx => hin x (List.mem_cons_of_mem _ hx))
          (fun x hx y hy => hcross x (List.mem_cons_of_mem _ hx)
            y (List.mem_cons_of_mem _ hy))
      · intro x hx y hy
        obtain ⟨b, hb, hyb⟩ := List.mem_flatMap.mp hy
        have hSab : S a b := (List.pairwise_cons.mp hS).1 b hb
        exact hcross a (List.mem_cons_self ..) b (List.mem_cons_of_mem _ hb)
          hSab x hx y hyb

lemma pairwise_lex_levels {N : Nat} (hN : 1 ≤ N) (c f : Nat → Nat → Int) :
    ∀ k, (levels N c f k).Pairwise (List.Lex (· < ·))
  | 0 => by simp [levels]
  | k + 1 => by
      show ((levels N c f k).flatMap (extensionsOf N c f)).Pairwise _
      refine pairwise_flatMap_of (pairwise_lex_levels hN c f k)
        (fun p _ => pairwise_lex_extensionsOf N c f p) ?_
      intro p hp q hq hpq x hx y hy
      obtain ⟨r, -, -, -, rfl⟩ := mem_extensionsOf.mp hx
      obtain ⟨s, -, -, -, rfl⟩ := mem_extensionsOf.mp hy
      have h1 : p.length = q.length := by
        rw [length_of_mem_levels hp, length_of_mem_levels hq]
      exact lex_append_of_lex p q h1 hpq r s

/-! ### The augmenting-path predicate and full characterisation of the
path finder -/

/-- A valid augmenting path: from room `0` to the escape-pods room `N - 1`,
no room repeated, all rooms in range, strictly positive residual capacity on
every consecutive corridor. -/
def IsAugPath (N : Nat) (c f : Nat → Nat → Int) (p : List Nat) : Prop :=
  p.head? = some 0 ∧ p.getLast? = some (N - 1) ∧ p.Nodup ∧ (∀ x ∈ p, x < N)
    ∧ List.Chain' (fun u v => 0 < residual c f u v) p

lemma endsAtSink_iff_getLast {N : Nat} (hN : 1 ≤ N) {p : List Nat}
    (hne : p ≠ []) : endsAtSink N p ↔ p.getLast? = some (N - 1) := by
  have hl : p.getLast? = some (p.getLast hne) := List.getLast?_eq_getLast p hne
  rw [endsAtSink, List.getLastD_eq_getLast?, hl]
  simp only [Option.getD_some, Option.some.injEq]
  omega

lemma isAugPath_iff_level {N : Nat} (hN : 1 ≤ N) {c f : Nat → Nat → Int}
    {p : List Nat} :
    IsAugPath N c f p
      ↔ ∃ k, p ∈ levels N c f k ∧ endsAtSink N p ∧ p.length = k + 1 := by
  constructor
  · rintro ⟨hhead, hlast, hnd, hmem, hchain⟩
    have hne : p ≠ [] := by
      intro hcon; rw [hcon] at hhead; simp at hhead
    have hlen : 1 ≤ p.length := List.length_pos.mpr hne
    refine ⟨p.length - 1, ?_, ?_, by omega⟩
    · exact (mem_levels_iff hN).mpr ⟨by omega, hhead, hnd, hmem, hchain⟩
    · exact (endsAtSink_iff_getLast hN hne).mpr hlast
  · rintro ⟨k, hmem, hsink, -⟩
    obtain ⟨hlen, hhead, hnd, hmemlt, hchain⟩ := (mem_levels_iff hN).mp hmem
    have hne : p ≠ [] := by
      intro hcon; rw [hcon] at hlen; simp at hlen
    exact ⟨hhead, (endsAtSink_iff_getLast hN hne).mp hsink, hnd, hmemlt, hchain⟩

lemma find_first_sink {N : Nat} (hN : 1 ≤ N) (c f : Nat → Nat → Int)
    (hex : ∃ k, ∃ p ∈ levels N c f k, endsAtSink N p) :
    ∃ k L₁ p L₂, levels N c f k = L₁ ++ p :: L₂ ∧ endsAtSink N p
      ∧ (∀ q ∈ L₁, ¬ endsAtSink N q)
      ∧ (∀ j, j < k → ∀ q ∈ levels N c f j, ¬ endsAtSink N q)
      ∧ find_bunny_path N c f = some p := by
  classical
  obtain ⟨p, hpmem, hpsink⟩ := Nat.find_spec hex
  have hleast : ∀ j, j < Nat.find hex →
      ∀ q ∈ levels N c f j, ¬ endsAtSink N q := by
    intro j hj r hr hrs
    exact Nat.find_min hex hj ⟨r, hr, hrs⟩
  obtain ⟨L₁, q, L₂, hsplit, hq, hL₁⟩ :=
    exists_first_split (endsAtSink N) (levels N c f (Nat.find hex))
      ⟨p, hpmem, hpsink⟩
  exact ⟨Nat.find hex, L₁, q, L₂, hsplit, hq, hL₁, hleast,
    find_eq_some_of_first hN hleast hsplit hL₁ hq⟩

/-- C4: for every capacity matrix and flow matrix, `find_bunny_path` either
returns an augmenting path — from node `0` to node `N - 1`, strictly
positive residual capacity on every consecutive edge, no node repeated —
that has the minimum number of edges among all augmenting paths and is
lexicographically least among the shortest ones (ties broken by ascending
node index); or, when no augmenting path exists, it returns `none` rather
than failing. -/
theorem claim_C4_path_finder (N : Nat) (c f : Nat → Nat → Int) (hN : 1 ≤ N) :
    (∀ p, find_bunny_path N c f = some p →
      IsAugPath N c f p
      ∧ (∀ q, IsAugPath N c f q → p.length ≤ q.length)
      ∧ (∀ q, IsAugPath N c f q → q.length = p.length →
          p = q ∨ List.Lex (· < ·) p q))
    ∧ (find_bunny_path N c f = none ↔ ¬ ∃ q, IsAugPath N c f q) := by
  by_cases hex : ∃ k, ∃ p ∈ levels N c f k, endsAtSink N p
  · obtain ⟨k₀, L₁, p₀, L₂, hsplit, hp₀sink, hL₁, hbefore, hfind⟩ :=
      find_first_sink hN c f hex
    have hp₀mem : p₀ ∈ levels N c f k₀ := by
      rw [hsplit]; exact List.mem_append_right _ (List.mem_cons_self ..)
    have hp₀len : p₀.length = k₀ + 1 := length_of_mem_levels hp₀mem
    have hp₀aug : IsAugPath N c f p₀ :=
      (isAugPath_iff_level hN).mpr ⟨k₀, hp₀mem, hp₀sink, hp₀len⟩
    constructor
    · intro p hp
      rw [hfind, Option.some.injEq] at hp
      subst hp
      refine ⟨hp₀aug, ?_, ?_⟩
      · intro q hq
        obtain ⟨kq, hqmem, hqsink, hqlen⟩ := (isAugPath_iff_level hN).mp hq
        have hk₀kq : k₀ ≤ kq := by
          by_contra hcon
          exact hbefore kq (by omega) q hqmem hqsink
        omega
      · intro q hq hlen
        obtain ⟨kq, hqmem, hqsink, hqlen⟩ := (isAugPath_iff_level hN).mp hq
        have hkk : kq = k₀ := by omega
        subst hkk
        rw [hsplit] at hqmem
        rcases List.mem_append.mp hqmem with h | h
        · exact absurd hqsink (hL₁ q h)
        · rcases List.mem_cons.mp h with rfl | h
          · exact Or.inl rfl
          · right
            have hpw := pairwise_lex_levels hN c f kq
            rw [hsplit] at hpw
            exact (List.pairwise_cons.mp (List.pairwise_append.mp hpw).2.1).1 q h
    · rw [hfind]
      simp only [Option.some_ne_none, false_iff, not_not]
      exact ⟨p₀, hp₀aug⟩
  · push_neg at hex
    have hnone : find_bunny_path N c f = none :=
      find_eq_none_of_no_sink hN hex
    refine ⟨?_, ?_⟩
    · intro p hp
      rw [hnone] at hp
      exact absurd hp (Option.noConfusion)
    · rw [hnone]
      simp only [true_iff]
      rintro ⟨q, hq⟩
      obtain ⟨kq, hqmem, hqsink, -⟩ := (isAugPath_iff_level hN).mp hq
      exact hex kq q hqmem hqsink

/-- Witness for C4 at `N = 2`, the capacity matrix `[[0,5],[0,0]]` and the
zero flow. -/
theorem claim_C4_witness :
    ((∀ p, find_bunny_path 2 (matEntry [[0, 5], [0, 0]]) (fun _ _ => 0)
        = some p →
      IsAugPath 2 (matEntry [[0, 5], [0, 0]]) (fun _ _ => 0) p
      ∧ (∀ q, IsAugPath 2 (matEntry [[0, 5], [0, 0]]) (fun _ _ => 0) q →
          p.length ≤ q.length)
      ∧ (∀ q, IsAugPath 2 (matEntry [[0, 5], [0, 0]]) (fun _ _ => 0) q →
          q.length = p.length → p = q ∨ List.Lex (· < ·) p q))
    ∧ (find_bunny_path 2 (matEntry [[0, 5], [0, 0]]) (fun _ _ => 0) = none
        ↔ ¬ ∃ q, IsAugPath 2 (matEntry [[0, 5], [0, 0]]) (fun _ _ => 0) q)) :=
  claim_C4_path_finder 2 (matEntry [[0, 5], [0, 0]]) (fun _ _ => 0) (by decide)

/-! ### Soundness of any found path, and integrality of the bottleneck -/

lemma find_some_isAugPath {N : Nat} (hN : 1 ≤ N) {c f : Nat → Nat → Int}
    {p : List Nat} (h : find_bunny_path N c f = some p) : IsAugPath N c f p := by
  by_cases hex : ∃ k, ∃ q ∈ levels N c f k, endsAtSink N q
  · obtain ⟨k₀, L₁, p₀, L₂, hsplit, hp₀sink, -, -, hfind⟩ :=
      find_first_sink hN c f hex
    have hp₀mem : p₀ ∈ levels N c f k₀ := by
      rw [hsplit]; exact List.mem_append_right _ (List.mem_cons_self ..)
    rw [hfind, Option.some.injEq] at h
    subst h
    exact (isAugPath_iff_level hN).mpr
      ⟨k₀, hp₀mem, hp₀sink, length_of_mem_levels hp₀mem⟩
  · push_neg at hex
    rw [find_eq_none_of_no_sink hN hex] at h
    exact absurd h (Option.noConfusion)

lemma isAugPath_length_ge_two {N : Nat} (hN : 2 ≤ N) {c f : Nat → Nat → Int}
    {p : List Nat} (h : IsAugPath N c f p) : 2 ≤ p.length := by
  obtain ⟨hhead, hlast, -, -, -⟩ := h
  rcases p with _ | ⟨a, t⟩
  · simp at hhead
  · rcases t with _ | ⟨b, t⟩
    · simp only [List.head?_cons, Option.some.injEq] at hhead
      simp only [List.getLast?_singleton, Option.some.injEq] at hlast
      omega
    · simp

lemma foldl_min_coe : ∀ (rs : List Int) (r : Int),
    (rs.map (fun x => WithTop.some x)).foldl min (WithTop.some r)
      = WithTop.some (rs.foldl min r)
  | [], _ => rfl
  | x :: rs, r => by
      rw [List.map_cons, List.foldl_cons, List.foldl_cons]
      have hmin : min (WithTop.some r) (WithTop.some x)
          = WithTop.some (min r x) := (WithTop.coe_min r x).symm
      rw [hmin]
      exact foldl_min_coe rs (min r x)

lemma bottleneckW_eq_coe (c f : Nat → Nat → Int) {p : List Nat}
    (h : pathEdges p ≠ []) :
    bottleneckW c f p = ((bottleneckI c f p : Int) : WithTop Int) := by
  rcases hl : (pathEdges p).map (fun e => residual c f e.1 e.2) with _ | ⟨r, rs⟩
  · exact absurd (List.map_eq_nil_iff.mp hl) h
  · have hbi : bottleneckI c f p = rs.foldl min r := by
      unfold bottleneckI; rw [hl]
    have hmap : (pathEdges p).map
        (fun e => ((residual c f e.1 e.2 : Int) : WithTop Int))
        = (r :: rs).map (fun x => WithTop.some x) := by
      rw [← hl, List.map_map]; rfl
    rw [bottleneckW, hmap, List.map_cons, List.foldl_cons, hbi]
    have htop : min (⊤ : WithTop Int) (WithTop.some r)
        = WithTop.some r := min_eq_right le_top
    rw [htop]
    exact foldl_min_coe rs r

/-- C10: throughout a solve, all arithmetic is exact integer arithmetic.
Every matrix the top-level solve hands to the engine has at least two rows,
on such matrices every path the finder returns has at least one edge, and
therefore the `float('Inf')` seed of the bottleneck computation (modelled as
`⊤ : WithTop ℤ`) is always replaced by the finite integer minimum of the
residual capacities along the path — the exact integer that is added to and
subtracted from the flow matrix. -/
theorem claim_C10_integer_bottleneck :
    (∀ (entrances exits : List Nat) (path : List (List Int)),
      2 ≤ (compressed_paths entrances exits path).2.length)
    ∧ ∀ (N : Nat) (c f : Nat → Nat → Int) (p : List Nat), 2 ≤ N →
        find_bunny_path N c f = some p →
        2 ≤ p.length
        ∧ bottleneckW c f p = ((bottleneckI c f p : Int) : WithTop Int) := by
  constructor
  · intro entrances exits path
    show ((_ :: _) ++ [_]).length ≥ 2
    rw [List.length_append, List.length_cons]
    simp
  · intro N c f p hN hfind
    have haug := find_some_isAugPath (by omega) hfind
    have hlen := isAugPath_length_ge_two hN haug
    exact ⟨hlen, bottleneckW_eq_coe c f (pathEdges_ne_nil_of_two_le hlen)⟩

/-- Witness for C10 at `N = 2`, capacity `[[0,5],[0,0]]`, zero flow, where
the finder returns the one-edge path `[0, 1]`. -/
theorem claim_C10_witness :
    2 ≤ 2
    ∧ find_bunny_path 2 (matEntry [[0, 5], [0, 0]]) (fun _ _ => 0) = some [0, 1]
    ∧ (2 ≤ ([0, 1] : List Nat).length
      ∧ bottleneckW (matEntry [[0, 5], [0, 0]]) (fun _ _ => 0) [0, 1]
        = ((bottleneckI (matEntry [[0, 5], [0, 0]]) (fun _ _ => 0) [0, 1]
            : Int) : WithTop Int)) :=
  ⟨by decide, by decide,
    claim_C10_integer_bottleneck.2 2 (matEntry [[0, 5], [0, 0]])
      (fun _ _ => 0) [0, 1] (by decide) (by decide)⟩

/-! ### Column sums under augmentation -/

/-- Net flow out of the source row: the "total flow" of the engine state. -/
def flowValue (N : Nat) (f : Nat → Nat → Int) : Int :=
  ∑ v ∈ Finset.range N, f 0 v

/-- Total flow entering the escape-pods room: the quantity the engine
finally reports. -/
def sinkInflow (N : Nat) (f : Nat → Nat → Int) : Int :=
  ∑ u ∈ Finset.range N, f u (N - 1)

lemma sum_count_pair_fst {N n : Nat} :
    ∀ (es : List (Nat × Nat)), (∀ e ∈ es, e.1 < N) →
      (∑ u ∈ Finset.range N, (es.count (u, n) : Int))
        = ((es.map Prod.snd).count n : Int)
  | [], _ => by simp
  | e :: es, h => by
      obtain ⟨e1, e2⟩ := e
      have ih := sum_count_pair_fst (N := N) (n := n) es
        (fun x hx => h x (List.mem_cons_of_mem _ hx))
      simp only [List.count_cons, List.map_cons]
      push_cast
      rw [Finset.sum_add_distrib, ih]
      congr 1
      have he1 : e1 ∈ Finset.range N :=
        Finset.mem_range.mpr (h (e1, e2) (List.mem_cons_self ..))
      by_cases h2 : e2 = n
      · subst h2
        have hcond : ∀ u ∈ Finset.range N,
            (if ((e1, e2) == (u, e2)) = true then (1 : Int) else 0)
              = if u = e1 then 1 else 0 := by
          intro u _
          by_cases hu : u = e1
          · subst hu; simp
          · have hfalse : ¬ ((e1, e2) == (u, e2)) = true := by
              simp only [beq_iff_eq, Prod.mk.injEq]
              rintro ⟨h', -⟩
              exact hu h'.symm
            rw [if_neg hfalse, if_neg hu]
        rw [Finset.sum_congr rfl hcond, Finset.sum_ite_eq' (Finset.range N) e1
          (fun _ => (1 : Int)), if_pos he1]
        simp
      · have hcond : ∀ u ∈ Finset.range N,
            (if ((e1, e2) == (u, n)) = true then (1 : Int) else 0) = 0 := by
          intro u _
          have hfalse : ¬ ((e1, e2) == (u, n)) = true := by
            simp only [beq_iff_eq, Prod.mk.injEq]
            rintro ⟨-, h'⟩
            exact h2 h'
          rw [if_neg hfalse]
        rw [Finset.sum_congr rfl hcond]
        simp [h2]

lemma sum_count_pair_snd {N n : Nat} :
    ∀ (es : List (Nat × Nat)), (∀ e ∈ es, e.2 < N) →
      (∑ u ∈ Finset.range N, (es.count (n, u) : Int))
        = ((es.map Prod.fst).count n : Int)
  | [], _ => by simp
  | e :: es, h => by
      obtain ⟨e1, e2⟩ := e
      have ih := sum_count_pair_snd (N := N) (n := n) es
        (fun x hx => h x (List.mem_cons_of_mem _ hx))
      simp only [List.count_cons, List.map_cons]
      push_cast
      rw [Finset.sum_add_distrib, ih]
      congr 1
      have he2 : e2 ∈ Finset.range N :=
        Finset.mem_range.mpr (h (e1, e2) (List.mem_cons_self ..))
      by_cases h1 : e1 = n
      · subst h1
        have hcond : ∀ u ∈ Finset.range N,
            (if ((e1, e2) == (e1, u)) = true then (1 : Int) else 0)
              = if u = e2 then 1 else 0 := by
          intro u _
          by_cases hu : u = e2
          · subst hu; simp
          · have hfalse : ¬ ((e1, e2) == (e1, u)) = true := by
              simp only [beq_iff_eq, Prod.mk.injEq]
              rintro ⟨-, h'⟩
              exact hu h'.symm
            rw [if_neg hfalse, if_neg hu]
        rw [Finset.sum_congr rfl hcond, Finset.sum_ite_eq' (Finset.range N) e2
          (fun _ => (1 : Int)), if_pos he2]
        simp
      · have hcond : ∀ u ∈ Finset.range N,
            (if ((e1, e2) == (n, u)) = true then (1 : Int) else 0) = 0 := by
          intro u _
          have hfalse : ¬ ((e1, e2) == (n, u)) = true := by
            simp only [beq_iff_eq, Prod.mk.injEq]
            rintro ⟨h', -⟩
            exact h1 h'
          rw [if_neg hfalse]
        rw [Finset.sum_congr rfl hcond]
        simp [h1]

lemma pathEdges_fst_mem {p : List Nat} {e : Nat × Nat} (he : e ∈ pathEdges p) :
    e.1 ∈ p := by
  have : e.1 ∈ (pathEdges p).map Prod.fst := List.mem_map_of_mem _ he
  rw [map_fst_pathEdges] at this
  exact (List.dropLast_sublist p).mem this

lemma pathEdges_snd_mem {p : List Nat} {e : Nat × Nat} (he : e ∈ pathEdges p) :
    e.2 ∈ p := by
  have : e.2 ∈ (pathEdges p).map Prod.snd := List.mem_map_of_mem _ he
  rw [map_snd_pathEdges] at this
  exact (List.tail_sublist p).mem this

lemma augment_colsum {N : Nat} (f : Nat → Nat → Int) {p : List Nat}
    (b : Int) (n : Nat) (hmem : ∀ x ∈ p, x < N) :
    ∑ u ∈ Finset.range N, augment f p b u n
      = (∑ u ∈ Finset.range N, f u n)
        + b * ((p.tail.count n : Int) - (p.dropLast.count n : Int)) := by
  have h1 : ∀ u ∈ Finset.range N, augment f p b u n
      = f u n + b * ((pathEdges p).count (u, n) : Int)
        - b * ((pathEdges p).count (n, u) : Int) := by
    intro u _
    exact augment_apply f p b u n
  rw [Finset.sum_congr rfl h1]
  have hfst : ∀ e ∈ pathEdges p, e.1 < N :=
    fun e he => hmem e.1 (pathEdges_fst_mem he)
  have hsnd : ∀ e ∈ pathEdges p, e.2 < N :=
    fun e he => hmem e.2 (pathEdges_snd_mem he)
  have hs1 : (∑ u ∈ Finset.range N,
      (b * ((pathEdges p).count (u, n) : Int)))
      = b * ((p.tail.count n : Int)) := by
    rw [← Finset.mul_sum, sum_count_pair_fst (pathEdges p) hfst,
      map_snd_pathEdges]
  have hs2 : (∑ u ∈ Finset.range N,
      (b * ((pathEdges p).count (n, u) : Int)))
      = b * ((p.dropLast.count n : Int)) := by
    rw [← Finset.mul_sum, sum_count_pair_snd (pathEdges p) hsnd,
      map_fst_pathEdges]
  calc ∑ u ∈ Finset.range N,
        (f u n + b * ((pathEdges p).count (u, n) : Int)
          - b * ((pathEdges p).count (n, u) : Int))
      = (∑ u ∈ Finset.range N, f u n)
        + (∑ u ∈ Finset.range N, b * ((pathEdges p).count (u, n) : Int))
        - (∑ u ∈ Finset.range N, b * ((pathEdges p).count (n, u) : Int)) := by
        rw [Finset.sum_sub_distrib, Finset.sum_add_distrib]
    _ = (∑ u ∈ Finset.range N, f u n)
        + b * ((p.tail.count n : Int) - (p.dropLast.count n : Int)) := by
        rw [hs1, hs2]; ring

/-! ### Counting occurrences in the tail and front of an augmenting path -/

lemma augPath_count_facts {N : Nat} (hN : 2 ≤ N) {c f : Nat → Nat → Int}
    {p : List Nat} (h : IsAugPath N c f p) :
    p.tail.count 0 = 0 ∧ p.dropLast.count 0 = 1
    ∧ p.tail.count (N - 1) = 1 ∧ p.dropLast.count (N - 1) = 0
    ∧ ∀ n, n ≠ 0 → n ≠ N - 1 → p.tail.count n = p.dropLast.count n := by
  have hlen : 2 ≤ p.length := isAugPath_length_ge_two hN h
  obtain ⟨hhead, hlast, hnd, -, -⟩ := h
  obtain ⟨t, rfl⟩ : ∃ t, p = 0 :: t := by
    rcases p with _ | ⟨a, t⟩
    · simp at hhead
    · simp only [List.head?_cons, Option.some.injEq] at hhead
      exact ⟨t, by rw [hhead]⟩
  have htne : t ≠ [] := by
    intro hcon; rw [hcon] at hlen; simp at hlen
  have hnt : (0 : Nat) ∉ t := (List.nodup_cons.mp hnd).1
  have htnd : t.Nodup := (List.nodup_cons.mp hnd).2
  have hpne : (0 :: t) ≠ [] := by simp
  have hdrop : (0 :: t).dropLast = 0 :: t.dropLast := by
    rcases t with _ | ⟨b, t⟩
    · exact absurd rfl htne
    · rfl
  have hlastmem : (N - 1) ∈ t := by
    have h1 : (0 :: t).getLast hpne = N - 1 := by
      have := List.getLast?_eq_getLast (0 :: t) hpne
      rw [this] at hlast
      exact (Option.some.injEq .. ▸ hlast :)
    have h2 : (0 :: t).getLast hpne ∈ (0 :: t) := List.getLast_mem hpne
    rw [h1] at h2
    rcases List.mem_cons.mp h2 with h3 | h3
    · omega
    · exact h3
  have hN1drop : (N - 1) ∉ (0 :: t).dropLast := by
    have hsplit : (0 :: t).dropLast ++ [(0 :: t).getLast hpne] = 0 :: t :=
      List.dropLast_append_getLast hpne
    have h1 : (0 :: t).getLast hpne = N - 1 := by
      have := List.getLast?_eq_getLast (0 :: t) hpne
      rw [this] at hlast
      exact (Option.some.injEq .. ▸ hlast :)
    intro hcon
    have hnd2 : ((0 :: t).dropLast ++ [(0 :: t).getLast hpne]).Nodup := by
      rw [hsplit]; exact hnd
    exact (List.nodup_append.mp hnd2).2.2 hcon
      (by rw [h1]; exact List.mem_singleton_self _)
  refine ⟨?_, ?_, ?_, ?_, ?_⟩
  · exact List.count_eq_zero.mpr hnt
  · rw [hdrop, List.count_cons]
    have h0 : (0 : Nat) ∉ t.dropLast :=
      fun hcon => hnt ((List.dropLast_sublist t).mem hcon)
    rw [List.count_eq_zero.mpr h0]
    simp
  · exact count_eq_one_of_nodup_of_mem htnd hlastmem
  · exact List.count_eq_zero.mpr hN1drop
  · intro n hn0 hnN1
    by_cases hmem : n ∈ (0 :: t)
    · have hsplit : (0 :: t).dropLast ++ [(0 :: t).getLast hpne] = 0 :: t :=
        List.dropLast_append_getLast hpne
      have h1 : (0 :: t).getLast hpne = N - 1 := by
        have := List.getLast?_eq_getLast (0 :: t) hpne
        rw [this] at hlast
        exact (Option.some.injEq .. ▸ hlast :)
      have hmemt : n ∈ t := by
        rcases List.mem_cons.mp hmem with h2 | h2
        · exact absurd h2 hn0
        · exact h2
      have hmemdrop : n ∈ (0 :: t).dropLast := by
        rw [← hsplit] at hmem
        rcases List.mem_append.mp hmem with h2 | h2
        · exact h2
        · rw [List.mem_singleton.mp h2] at hnN1
          rw [h1] at hnN1
          exact absurd rfl hnN1
      have hdnd : (0 :: t).dropLast.Nodup :=
        hnd.sublist (List.dropLast_sublist _)
      simp only [List.tail_cons]
      rw [count_eq_one_of_nodup_of_mem htnd hmemt,
        count_eq_one_of_nodup_of_mem hdnd hmemdrop]
    · have h2 : n ∉ t := fun hcon => hmem (List.mem_cons_of_mem _ hcon)
      have h3 : n ∉ (0 :: t).dropLast :=
        fun hcon => hmem ((List.dropLast_sublist (0 :: t)).mem hcon)
      simp only [List.tail_cons]
      rw [List.count_eq_zero.mpr h2, List.count_eq_zero.mpr h3]

/-! ### The engine loop invariant -/

/-- The invariants of the flow matrix maintained by the Edmonds-Karp loop:
skew symmetry, capacity bound (non-negative residuals), conservation at
interior nodes, and agreement of the sink inflow with the source outflow. -/
structure EngineInv (N : Nat) (c f : Nat → Nat → Int) : Prop where
  skew : ∀ u v, f u v = - f v u
  bounded : ∀ u v, f u v ≤ c u v
  conserv : ∀ n, n ≠ 0 → n ≠ N - 1 → (∑ u ∈ Finset.range N, f u n) = 0
  valeq : sinkInflow N f = flowValue N f

lemma chain_pathEdges {R : Nat → Nat → Prop} :
    ∀ {p : List Nat}, List.Chain' R p → ∀ e ∈ pathEdges p, R e.1 e.2
  | [], _, e, he => by simp [pathEdges] at he
  | [_], _, e, he => by simp [pathEdges] at he
  | a :: b :: t, h, e, he => by
      rw [List.chain'_cons] at h
      have hpe : pathEdges (a :: b :: t) = (a, b) :: pathEdges (b :: t) := rfl
      rw [hpe] at he
      rcases List.mem_cons.mp he with rfl | he
      · exact h.1
      · exact chain_pathEdges h.2 e he

lemma isAugPath_edges_pos {N : Nat} {c f : Nat → Nat → Int} {p : List Nat}
    (h : IsAugPath N c f p) : ∀ e ∈ pathEdges p, 0 < residual c f e.1 e.2 :=
  chain_pathEdges h.2.2.2.2

lemma flowValue_eq_neg_colsum {N : Nat} {f : Nat → Nat → Int}
    (hskew : ∀ u v, f u v = - f v u) :
    flowValue N f = -(∑ u ∈ Finset.range N, f u 0) := by
  rw [flowValue, ← Finset.sum_neg_distrib]
  exact Finset.sum_congr rfl (fun v _ => hskew 0 v)

lemma engineInv_augment {N : Nat} (hN : 2 ≤ N) {c f : Nat → Nat → Int}
    (inv : EngineInv N c f) {p : List Nat} (haug : IsAugPath N c f p) :
    EngineInv N c (augment f p (bottleneckI c f p))
    ∧ flowValue N (augment f p (bottleneckI c f p))
        = flowValue N f + bottleneckI c f p
    ∧ 1 ≤ bottleneckI c f p := by
  have hpos := isAugPath_edges_pos haug
  have hlen : 2 ≤ p.length := isAugPath_length_ge_two hN haug
  have hne : pathEdges p ≠ [] := pathEdges_ne_nil_of_two_le hlen
  have hb1 : 1 ≤ bottleneckI c f p := bottleneckI_pos hne hpos
  have hnd : p.Nodup := haug.2.2.1
  have hmemlt : ∀ x ∈ p, x < N := haug.2.2.2.1
  obtain ⟨hc1, hc2, hc3, hc4, hc5⟩ := augPath_count_facts hN haug
  set b := bottleneckI c f p with hbdef
  have hskew' : ∀ u v, augment f p b u v = - augment f p b v u :=
    augment_skew p b inv.skew
  have hval : flowValue N (augment f p b) = flowValue N f + b := by
    rw [flowValue_eq_neg_colsum hskew', flowValue_eq_neg_colsum inv.skew,
      augment_colsum f b 0 hmemlt, hc1, hc2]
    push_cast
    ring
  refine ⟨⟨hskew', augment_bounded hnd inv.bounded (by omega), ?_, ?_⟩,
    hval, hb1⟩
  · intro n hn0 hnN1
    rw [augment_colsum f b n hmemlt, inv.conserv n hn0 hnN1, hc5 n hn0 hnN1]
    ring
  · show sinkInflow N (augment f p b) = flowValue N (augment f p b)
    rw [hval, sinkInflow, augment_colsum f b (N - 1) hmemlt, hc3, hc4,
      ← sinkInflow, inv.valeq]
    push_cast
    ring

lemma bfLoop_succ (N : Nat) (c : Nat → Nat → Int) (fuel : Nat)
    (f : Nat → Nat → Int) :
    bfLoop N c (fuel + 1) f
      = match find_bunny_path N c f with
        | none => f
        | some p => bfLoop N c fuel (augment f p (bottleneckI c f p)) := rfl

lemma bfLoop_spec {N : Nat} (hN : 2 ≤ N) {c : Nat → Nat → Int} :
    ∀ (fuel : Nat) (f : Nat → Nat → Int), EngineInv N c f →
      (∑ u ∈ Finset.range N, c 0 u) < flowValue N f + (fuel : Int) →
      EngineInv N c (bfLoop N c fuel f)
      ∧ find_bunny_path N c (bfLoop N c fuel f) = none
      ∧ flowValue N f ≤ flowValue N (bfLoop N c fuel f)
  | 0, f, inv, hfuel => by
      exfalso
      have hle : flowValue N f ≤ ∑ u ∈ Finset.range N, c 0 u :=
        Finset.sum_le_sum (fun u _ => inv.bounded 0 u)
      push_cast at hfuel
      omega
  | fuel + 1, f, inv, hfuel => by
      rcases hfind : find_bunny_path N c f with _ | p
      · have hstep : bfLoop N c (fuel + 1) f = f := by
          rw [bfLoop_succ, hfind]
        rw [hstep]
        exact ⟨inv, hfind, le_refl _⟩
      · have haug := find_some_isAugPath (by omega) hfind
        obtain ⟨inv', hval, hb⟩ := engineInv_augment hN inv haug
        have hrec := bfLoop_spec hN fuel
          (augment f p (bottleneckI c f p)) inv'
          (by rw [hval]; push_cast at hfuel ⊢; omega)
        have hstep : bfLoop N c (fuel + 1) f
            = bfLoop N c fuel (augment f p (bottleneckI c f p)) := by
          rw [bfLoop_succ, hfind]
        rw [hstep]
        exact ⟨hrec.1, hrec.2.1, by
          have h2 := hrec.2.2
          rw [hval] at h2
          omega⟩

lemma engineInv_zero {N : Nat} {c : Nat → Nat → Int}
    (hc : ∀ u v, 0 ≤ c u v) : EngineInv N c (fun _ _ => 0) := by
  refine ⟨fun u v => by ring, fun u v => hc u v, fun n _ _ => by simp, ?_⟩
  simp [sinkInflow, flowValue]

lemma finalFlow_spec {N : Nat} (hN : 2 ≤ N) {c : Nat → Nat → Int}
    (hc : ∀ u v, 0 ≤ c u v) :
    EngineInv N c (finalFlow N c)
    ∧ find_bunny_path N c (finalFlow N c) = none
    ∧ 0 ≤ flowValue N (finalFlow N c) := by
  have h0 : flowValue N (fun _ _ => (0 : Int)) = 0 := by simp [flowValue]
  have hfuel : (∑ u ∈ Finset.range N, c 0 u)
      < flowValue N (fun _ _ => 0) + (engineFuel N c : Int) := by
    have h2 : (∑ u ∈ Finset.range N, c 0 u)
        ≤ (∑ u ∈ Finset.range N, ((c 0 u).toNat : Int)) :=
      Finset.sum_le_sum (fun u _ => Int.self_le_toNat _)
    rw [h0, engineFuel]
    push_cast
    omega
  have h := bfLoop_spec hN (engineFuel N c) (fun _ _ => 0)
    (engineInv_zero hc) hfuel
  exact ⟨h.1, h.2.1, h0 ▸ h.2.2⟩

lemma getD_nonneg {l : List Int} (h : ∀ x ∈ l, 0 ≤ x) (v : Nat) :
    0 ≤ l.getD v 0 := by
  rcases lt_or_ge v l.length with hv | hv
  · rw [List.getD_eq_getElem l 0 hv]
    exact h _ (List.getElem_mem ..)
  · rw [List.getD_eq_default l 0 hv]

lemma matEntry_nonneg {m : List (List Int)}
    (h : ∀ row ∈ m, ∀ x ∈ row, 0 ≤ x) (u v : Nat) : 0 ≤ matEntry m u v := by
  unfold matEntry
  apply getD_nonneg _ v
  intro x hx
  rcases lt_or_ge u m.length with hu | hu
  · rw [List.getD_eq_getElem m [] hu] at hx
    exact h _ (List.getElem_mem ..) x hx
  · rw [List.getD_eq_default m [] hu] at hx
    simp at hx

/-- C6 amended: for every square matrix of non-negative integer capacities
with `N ≥ 2` (`N = 1` makes the Python loop spin forever, see the
counterexample), the engine loop makes monotone progress and terminates:
whenever a path is found the total flow strictly increases by at least `1`,
the total flow is bounded by the capacity leaving the source, and the loop
reaches a state in which the path finder reports no path, at which point the
integer result is returned. -/
theorem claim_C6_termination (N : Nat) (c : Nat → Nat → Int)
    (hN : 2 ≤ N) (hc : ∀ u v, 0 ≤ c u v) :
    (∀ f p, EngineInv N c f → find_bunny_path N c f = some p →
      flowValue N f + 1 ≤ flowValue N (augment f p (bottleneckI c f p)))
    ∧ (∀ f, EngineInv N c f → flowValue N f ≤ ∑ u ∈ Finset.range N, c 0 u)
    ∧ find_bunny_path N c (finalFlow N c) = none := by
  refine ⟨?_, ?_, (finalFlow_spec hN hc).2.1⟩
  · intro f p inv hfind
    obtain ⟨-, hval, hb⟩ := engineInv_augment hN inv
      (find_some_isAugPath (by omega) hfind)
    omega
  · intro f inv
    exact Finset.sum_le_sum (fun u _ => inv.bounded 0 u)

/-- Witness for the amended C6 at `N = 2` with capacity `[[0,5],[0,0]]`. -/
theorem claim_C6_witness :
    (∀ f p, EngineInv 2 (matEntry [[0, 5], [0, 0]]) f →
      find_bunny_path 2 (matEntry [[0, 5], [0, 0]]) f = some p →
      flowValue 2 f + 1 ≤ flowValue 2
        (augment f p (bottleneckI (matEntry [[0, 5], [0, 0]]) f p)))
    ∧ (∀ f, EngineInv 2 (matEntry [[0, 5], [0, 0]]) f →
        flowValue 2 f ≤ ∑ u ∈ Finset.range 2, matEntry [[0, 5], [0, 0]] 0 u)
    ∧ find_bunny_path 2 (matEntry [[0, 5], [0, 0]])
        (finalFlow 2 (matEntry [[0, 5], [0, 0]])) = none :=
  claim_C6_termination 2 (matEntry [[0, 5], [0, 0]]) (by decide)
    (matEntry_nonneg (by decide))

/-- Total positive flow entering node `n`. -/
def inflow (N : Nat) (f : Nat → Nat → Int) (n : Nat) : Int :=
  ∑ u ∈ Finset.range N, max (f u n) 0

/-- Total positive flow leaving node `n`. -/
def outflow (N : Nat) (f : Nat → Nat → Int) (n : Nat) : Int :=
  ∑ v ∈ Finset.range N, max (f n v) 0

/-- C7: after the engine loop completes on a matrix of non-negative
capacities, the final flow matrix conserves flow at every node other than
the source `0` and the sink `N - 1` (total inflow equals total outflow), and
the reported result is the sum over all nodes `n` of `flow[n][sink]`. -/
theorem claim_C7_conservation (corridors : List (List Int))
    (hN : 2 ≤ corridors.length)
    (hrows : ∀ row ∈ corridors, ∀ x ∈ row, 0 ≤ x) :
    (∀ n, n ≠ 0 → n ≠ corridors.length - 1 →
      inflow corridors.length
          (finalFlow corridors.length (matEntry corridors)) n
        = outflow corridors.length
          (finalFlow corridors.length (matEntry corridors)) n)
    ∧ maximum_bunnies_rescuable corridors
        = ∑ n ∈ Finset.range corridors.length,
            finalFlow corridors.length (matEntry corridors) n
              (corridors.length - 1) := by
  have hc := matEntry_nonneg hrows
  obtain ⟨inv, -, -⟩ := finalFlow_spec hN hc
  refine ⟨?_, rfl⟩
  intro n hn0 hnN1
  have hcons := inv.conserv n hn0 hnN1
  have hpt : ∀ u, max (finalFlow corridors.length (matEntry corridors) u n) 0
      - max (finalFlow corridors.length (matEntry corridors) n u) 0
      = finalFlow corridors.length (matEntry corridors) u n := by
    intro u
    have hs := inv.skew n u
    omega
  have hdiff : inflow corridors.length
        (finalFlow corridors.length (matEntry corridors)) n
      - outflow corridors.length
        (finalFlow corridors.length (matEntry corridors)) n
      = ∑ u ∈ Finset.range corridors.length,
          finalFlow corridors.length (matEntry corridors) u n := by
    rw [inflow, outflow, ← Finset.sum_sub_distrib]
    exact Finset.sum_congr rfl (fun u _ => hpt u)
  omega

/-- Witness for C7 on the matrix `[[0,5],[0,0]]`. -/
theorem claim_C7_witness :
    (∀ n, n ≠ 0 → n ≠ ([[0, 5], [0, 0]] : List (List Int)).length - 1 →
      inflow ([[0, 5], [0, 0]] : List (List Int)).length
          (finalFlow ([[0, 5], [0, 0]] : List (List Int)).length
            (matEntry [[0, 5], [0, 0]])) n
        = outflow ([[0, 5], [0, 0]] : List (List Int)).length
          (finalFlow ([[0, 5], [0, 0]] : List (List Int)).length
            (matEntry [[0, 5], [0, 0]])) n)
    ∧ maximum_bunnies_rescuable [[0, 5], [0, 0]]
        = ∑ n ∈ Finset.range ([[0, 5], [0, 0]] : List (List Int)).length,
            finalFlow ([[0, 5], [0, 0]] : List (List Int)).length
              (matEntry [[0, 5], [0, 0]]) n
              (([[0, 5], [0, 0]] : List (List Int)).length - 1) :=
  claim_C7_conservation [[0, 5], [0, 0]] (by decide) (by decide)

/-! ### The graph reducer: index bookkeeping -/

/-- The original nodes that survive the reduction: all rooms that are
neither entrances nor exits, in ascending order.  This is exactly the filter
used by `compressed_paths` and `removed_indices`. -/
def survivors (N : Nat) (entrances exits : List Nat) : List Nat :=
  (List.range N).filter (fun i => decide (i ∉ entrances ++ exits))

lemma getD_append_left {α : Type} {l₁ l₂ : List α} {i : Nat} (d : α)
    (h : i < l₁.length) : (l₁ ++ l₂).getD i d = l₁.getD i d := by
  rw [List.getD_eq_getElem?_getD, List.getD_eq_getElem?_getD,
    List.getElem?_append_left h]

lemma getD_append_right {α : Type} {l₁ l₂ : List α} {i : Nat} (d : α)
    (h : l₁.length ≤ i) : (l₁ ++ l₂).getD i d = l₂.getD (i - l₁.length) d := by
  rw [List.getD_eq_getElem?_getD, List.getD_eq_getElem?_getD,
    List.getElem?_append_right h]

lemma getD_map_of_lt {α β : Type} {l : List α} {i : Nat} (g : α → β)
    (dα : α) (dβ : β) (h : i < l.length) :
    (l.map g).getD i dβ = g (l.getD i dα) := by
  have h2 : i < (l.map g).length := by rw [List.length_map]; exact h
  rw [List.getD_eq_getElem _ dβ h2, List.getD_eq_getElem _ dα h,
    List.getElem_map]

lemma getD_replicate_zero {n j : Nat} :
    (List.replicate n (0 : Int)).getD j 0 = 0 := by
  rcases lt_or_ge j n with h | h
  · have h2 : j < (List.replicate n (0 : Int)).length := by
      rw [List.length_replicate]; exact h
    rw [List.getD_eq_getElem _ 0 h2, List.getElem_replicate]
  · rw [List.getD_eq_default]
    rw [List.length_replicate]
    exact h

lemma sum_map_add (B : List Nat) (x y : Nat → Int) :
    (B.map (fun b => x b + y b)).sum = (B.map x).sum + (B.map y).sum := by
  induction B with
  | nil => simp
  | cons b B ih => simp only [List.map_cons, List.sum_cons, ih]; ring

lemma sum_map_swap (A B : List Nat) (g : Nat → Nat → Int) :
    (A.map (fun a => (B.map (g a)).sum)).sum
      = (B.map (fun b => (A.map (fun a => g a b)).sum)).sum := by
  induction A with
  | nil => simp
  | cons a A ih =>
      simp only [List.map_cons, List.sum_cons, ih, ← sum_map_add]

lemma filter_range_perm {N : Nat} {T : List Nat} (hnd : T.Nodup)
    (hsub : ∀ t ∈ T, t < N) :
    ((List.range N).filter (fun i => decide (i ∈ T))).Perm T := by
  rw [List.perm_ext_iff_of_nodup ((List.nodup_range N).filter _) hnd]
  intro a
  simp only [List.mem_filter, List.mem_range, decide_eq_true_eq]
  exact ⟨fun h => h.2, fun h => ⟨hsub a h, h⟩⟩

lemma enumFrom_filter_sum (Q : Nat → Bool) :
    ∀ (l : List Int) (n : Nat),
      ((List.enumFrom n l).filter (fun ib => Q ib.1)).map Prod.snd
        = ((List.range l.length).filter (fun i => Q (i + n))).map
            (fun i => l.getD i 0) := by
  intro l
  induction l with
  | nil => intro n; simp
  | cons x l ih =>
      intro n
      have hstep : List.enumFrom n (x :: l) = (n, x) :: List.enumFrom (n + 1) l :=
        rfl
      rw [hstep, List.length_cons, List.range_succ_eq_map]
      rw [List.filter_cons, List.filter_cons]
      simp only [Nat.zero_add]
      have hkey : (List.filter (fun ib => Q ib.1)
            (List.enumFrom (n + 1) l)).map Prod.snd
          = ((List.range l.length).filter
              ((fun i => Q (i + n)) ∘ Nat.succ)).map
            ((fun i => (x :: l).getD i 0) ∘ Nat.succ) := by
        rw [ih (n + 1)]
        have hfil : (List.filter ((fun i => Q (i + n)) ∘ Nat.succ)
              (List.range l.length))
            = List.filter (fun i => Q (i + (n + 1))) (List.range l.length) := by
          apply List.filter_congr
          intro i _
          show Q (Nat.succ i + n) = Q (i + (n + 1))
          congr 1
          omega
        rw [hfil]
        exact List.map_congr_left
          (fun i _ => (@List.getD_cons_succ _ x l _ _).symm)
      by_cases hq : Q n
      · rw [if_pos (by simpa using hq), if_pos (by simpa using hq)]
        rw [List.map_cons, List.map_cons, List.getD_cons_zero]
        congr 1
        rw [hkey, List.filter_map, List.map_map]
      · rw [if_neg (by simpa using hq), if_neg (by simpa using hq)]
        rw [hkey, List.filter_map, List.map_map]

lemma enum_filter_sum (Q : Nat → Bool) (l : List Int) :
    ((l.enum.filter (fun ib => Q ib.1)).map Prod.snd)
      = ((List.range l.length).filter (fun i => Q i)).map
          (fun i => l.getD i 0) := by
  have h := enumFrom_filter_sum Q l 0
  rw [show l.enum = List.enumFrom 0 l from rfl, h]
  congr 1

lemma mem_survivors {N : Nat} {S T : List Nat} {i : Nat} :
    i ∈ survivors N S T ↔ i < N ∧ i ∉ S ∧ i ∉ T := by
  simp only [survivors, List.mem_filter, List.mem_range, decide_eq_true_eq,
    List.mem_append]
  tauto

lemma survivors_nodup (N : Nat) (S T : List Nat) : (survivors N S T).Nodup :=
  (List.nodup_range N).filter _

lemma survivors_length {N : Nat} {S T : List Nat} (hSnd : S.Nodup)
    (hTnd : T.Nodup) (hdisj : ∀ x ∈ S, x ∉ T)
    (hSsub : ∀ s ∈ S, s < N) (hTsub : ∀ t ∈ T, t < N) :
    (survivors N S T).length = N - S.length - T.length := by
  have hSTnd : (S ++ T).Nodup := by
    rw [List.nodup_append]
    exact ⟨hSnd, hTnd, hdisj⟩
  have hSTsub : ∀ x ∈ S ++ T, x < N := by
    intro x hx
    rcases List.mem_append.mp hx with h | h
    · exact hSsub x h
    · exact hTsub x h
  have hperm := filter_range_perm (N := N) hSTnd hSTsub
  have hlen1 : ((List.range N).filter (fun i => decide (i ∈ S ++ T))).length
      = S.length + T.length := by
    rw [hperm.length_eq, List.length_append]
  have hcount := List.length_eq_countP_add_countP
    (p := fun i => decide (i ∈ S ++ T)) (l := List.range N)
  have hcongr : (List.range N).countP
        (fun a => decide (¬ (decide (a ∈ S ++ T)) = true))
      = (List.range N).countP (fun i => decide (i ∉ S ++ T)) := by
    apply List.countP_congr
    intro a _
    simp
  rw [hcongr, List.countP_eq_length_filter, List.countP_eq_length_filter,
    List.length_range, hlen1] at hcount
  rw [survivors]
  omega

lemma foldl_zipWith_spec {path : List (List Int)}
    (hrow : ∀ row ∈ path, row.length = path.length) :
    ∀ (S : List Nat) (acc : List Int), (∀ s ∈ S, s < path.length) →
      acc.length = path.length →
      (S.foldl (fun acc e => List.zipWith (· + ·) acc (path.getD e []))
          acc).length = path.length
      ∧ ∀ i, i < path.length →
        (S.foldl (fun acc e => List.zipWith (· + ·) acc (path.getD e []))
            acc).getD i 0
          = acc.getD i 0 + (S.map (fun s => matEntry path s i)).sum
  | [], _, _, hacc => ⟨hacc, by simp⟩
  | e :: S, acc, hS, hacc => by
      have heN : e < path.length := hS e (List.mem_cons_self ..)
      have hrowe : (path.getD e []).length = path.length := by
        rw [List.getD_eq_getElem path [] heN]
        exact hrow _ (List.getElem_mem ..)
      have hzlen : (List.zipWith (· + ·) acc (path.getD e [])).length
          = path.length := by
        rw [List.length_zipWith, hacc, hrowe]
        simp
      have ih := foldl_zipWith_spec hrow S
        (List.zipWith (· + ·) acc (path.getD e []))
        (fun s hs => hS s (List.mem_cons_of_mem _ hs)) hzlen
      refine ⟨ih.1, ?_⟩
      intro i hi
      rw [List.foldl_cons, ih.2 i hi]
      have hia : i < acc.length := by omega
      have hib : i < (path.getD e []).length := by omega
      have hiz : i < (List.zipWith (· + ·) acc (path.getD e [])).length := by
        omega
      have hz : (List.zipWith (· + ·) acc (path.getD e [])).getD i 0
          = acc.getD i 0 + matEntry path e i := by
        rw [List.getD_eq_getElem _ 0 hiz, List.getElem_zipWith,
          ← List.getD_eq_getElem acc 0 hia,
          ← List.getD_eq_getElem (path.getD e []) 0 hib]
        rfl
      rw [hz, List.map_cons, List.sum_cons]
      ring

/-- The final assembly step of `compressed_paths`: prepend the super-source
row, wrap every surviving row with a leading `0` and its super-sink entry,
and append the all-zero super-sink row. -/
def assembleR (sb2 ep2 : List Int) (NP : List (List Int)) : List (List Int) :=
  ((0 : Int) :: sb2 ++ [0])
    :: (NP.enum.map (fun ir => 0 :: ir.2 ++ [ep2.getD ir.1 0]))
    ++ [List.replicate ((0 : Int) :: sb2 ++ [0]).length 0]

lemma assembleR_length (sb2 ep2 : List Int) (NP : List (List Int)) :
    (assembleR sb2 ep2 NP).length = NP.length + 2 := by
  unfold assembleR
  simp only [List.length_append, List.length_cons, List.length_map,
    List.enum_length, List.length_nil]

lemma assembleR_rows_length {sb2 : List Int} (ep2 : List Int)
    {NP : List (List Int)} {L : Nat}
    (hsb2 : sb2.length = L) (hNP : ∀ r ∈ NP, r.length = L) :
    ∀ row ∈ assembleR sb2 ep2 NP, row.length = L + 2 := by
  intro row hmem
  unfold assembleR at hmem
  rcases List.mem_append.mp hmem with hmem | hmem
  · rcases List.mem_cons.mp hmem with rfl | hmem
    · simp only [List.length_cons, List.length_append, List.length_nil, hsb2]
    · obtain ⟨ir, hir, rfl⟩ := List.mem_map.mp hmem
      have hr : ir.2 ∈ NP := by
        have h1 := List.enum_map_snd NP
        have h2 : ir.2 ∈ NP.enum.map Prod.snd := List.mem_map_of_mem _ hir
        rw [h1] at h2
        exact h2
      simp only [List.length_cons, List.length_append, List.length_nil,
        hNP _ hr]
  · rw [List.mem_singleton.mp hmem, List.length_replicate]
    simp only [List.length_cons, List.length_append, List.length_nil, hsb2]

lemma assembleR_row0 (sb2 ep2 : List Int) (NP : List (List Int)) {i : Nat}
    (h : i < sb2.length) :
    matEntry (assembleR sb2 ep2 NP) 0 (i + 1) = sb2.getD i 0 := by
  unfold matEntry assembleR
  rw [getD_append_left [] (by simp), List.getD_cons_zero,
    getD_append_left 0 (by rw [List.length_cons]; omega),
    List.getD_cons_succ]

lemma assembleR_getD_row (sb2 ep2 : List Int) (NP : List (List Int)) {i : Nat}
    (h : i < NP.length) :
    (assembleR sb2 ep2 NP).getD (i + 1) []
      = 0 :: NP.getD i [] ++ [ep2.getD i 0] := by
  unfold assembleR
  have hmap : (NP.enum.map
      (fun ir => (0 : Int) :: ir.2 ++ [ep2.getD ir.1 0])).length
      = NP.length := by
    rw [List.length_map, List.enum_length]
  rw [getD_append_left []
    (by rw [List.length_cons, hmap]; omega), List.getD_cons_succ]
  rw [List.getD_eq_getElem _ [] (by rw [hmap]; exact h), List.getElem_map,
    List.getElem_enum, List.getD_eq_getElem NP [] h]

lemma assembleR_interior (sb2 ep2 : List Int) (NP : List (List Int))
    {i j : Nat} (hi : i < NP.length) (hj : j < (NP.getD i []).length) :
    matEntry (assembleR sb2 ep2 NP) (i + 1) (j + 1)
      = (NP.getD i []).getD j 0 := by
  unfold matEntry
  rw [assembleR_getD_row sb2 ep2 NP hi,
    getD_append_left 0 (by rw [List.length_cons]; omega),
    List.getD_cons_succ]

lemma assembleR_last_col (sb2 ep2 : List Int) (NP : List (List Int))
    {i L : Nat} (hi : i < NP.length) (hlen : (NP.getD i []).length = L) :
    matEntry (assembleR sb2 ep2 NP) (i + 1) (L + 1) = ep2.getD i 0 := by
  unfold matEntry
  rw [assembleR_getD_row sb2 ep2 NP hi,
    getD_append_right 0 (by rw [List.length_cons]; omega),
    List.length_cons, hlen, Nat.sub_self, List.getD_cons_zero]

lemma assembleR_last_row (sb2 ep2 : List Int) (NP : List (List Int)) (j : Nat) :
    matEntry (assembleR sb2 ep2 NP) (NP.length + 1) j = 0 := by
  unfold matEntry assembleR
  have hmap : (NP.enum.map
      (fun ir => (0 : Int) :: ir.2 ++ [ep2.getD ir.1 0])).length
      = NP.length := by
    rw [List.length_map, List.enum_length]
  rw [getD_append_right [] (by rw [List.length_cons, hmap]),
    List.length_cons, hmap, Nat.sub_self, List.getD_cons_zero]
  exact getD_replicate_zero

lemma assembleR_corner_left (sb2 ep2 : List Int) (NP : List (List Int)) :
    matEntry (assembleR sb2 ep2 NP) 0 0 = 0 := by
  unfold matEntry assembleR
  rw [getD_append_left [] (by simp), List.getD_cons_zero,
    getD_append_left 0 (by simp), List.getD_cons_zero]

lemma assembleR_corner_right (sb2 ep2 : List Int) (NP : List (List Int)) :
    matEntry (assembleR sb2 ep2 NP) 0 (sb2.length + 1) = 0 := by
  unfold matEntry assembleR
  rw [getD_append_left [] (by simp), List.getD_cons_zero,
    getD_append_right 0 (by rw [List.length_cons]), List.length_cons,
    Nat.sub_self, List.getD_cons_zero]

lemma assembleR_col0 (sb2 ep2 : List Int) (NP : List (List Int)) {i : Nat}
    (hi : i < NP.length) :
    matEntry (assembleR sb2 ep2 NP) (i + 1) 0 = 0 := by
  unfold matEntry
  rw [assembleR_getD_row sb2 ep2 NP hi,
    getD_append_left 0 (by rw [List.length_cons]; omega), List.getD_cons_zero]

lemma sum_list_eq_sum_range :
    ∀ (l : List Int), l.sum = ∑ i ∈ Finset.range l.length, l.getD i 0
  | [] => by simp
  | x :: l => by
      rw [List.sum_cons, sum_list_eq_sum_range l, List.length_cons,
        Finset.sum_range_succ']
      simp only [List.getD_cons_succ, List.getD_cons_zero]
      ring

lemma list_finset_sum_swap (F : Finset Nat) (g : Nat → Nat → Int) :
    ∀ (S : List Nat),
      (S.map (fun s => ∑ i ∈ F, g s i)).sum
        = ∑ i ∈ F, (S.map (fun s => g s i)).sum
  | [] => by simp
  | s :: S => by
      rw [List.map_cons, List.sum_cons, list_finset_sum_swap F g S]
      rw [← Finset.sum_add_distrib]
      exact Finset.sum_congr rfl (fun i _ => by rw [List.map_cons, List.sum_cons])

/-- Full specification of the graph reducer, shared by several claims. -/
lemma compressed_paths_spec (entrances exits : List Nat)
    (path : List (List Int))
    (hrow : ∀ row ∈ path, row.length = path.length)
    (hSnd : entrances.Nodup) (hTnd : exits.Nodup)
    (hdisj : ∀ x ∈ entrances, x ∉ exits)
    (hSsub : ∀ s ∈ entrances, s < path.length)
    (hTsub : ∀ t ∈ exits, t < path.length) :
    (compressed_paths entrances exits path).1
      = (entrances.map
          (fun s => (exits.map (fun t => matEntry path s t)).sum)).sum
    ∧ (survivors path.length entrances exits).length
        = path.length - entrances.length - exits.length
    ∧ (compressed_paths entrances exits path).2.length
        = (survivors path.length entrances exits).length + 2
    ∧ (∀ row ∈ (compressed_paths entrances exits path).2,
        row.length = (survivors path.length entrances exits).length + 2)
    ∧ (∀ i, i < (survivors path.length entrances exits).length →
        matEntry (compressed_paths entrances exits path).2 0 (i + 1)
          = (entrances.map (fun s => matEntry path s
              ((survivors path.length entrances exits).getD i 0))).sum)
    ∧ (∀ i, i < (survivors path.length entrances exits).length →
        matEntry (compressed_paths entrances exits path).2 (i + 1)
            ((survivors path.length entrances exits).length + 1)
          = (exits.map (fun t => matEntry path
              ((survivors path.length entrances exits).getD i 0) t)).sum)
    ∧ (∀ i j, i < (survivors path.length entrances exits).length →
        j < (survivors path.length entrances exits).length →
        matEntry (compressed_paths entrances exits path).2 (i + 1) (j + 1)
          = matEntry path ((survivors path.length entrances exits).getD i 0)
              ((survivors path.length entrances exits).getD j 0))
    ∧ (∀ j, matEntry (compressed_paths entrances exits path).2
        ((survivors path.length entrances exits).length + 1) j = 0) := by
  set sv := survivors path.length entrances exits with hsvdef
  set sb := entrances.foldl
    (fun acc e => List.zipWith (· + ·) acc (path.getD e []))
    (List.replicate path.length (0 : Int)) with hsbdef
  set ep := (List.range path.length).map
    (fun index => (exits.map (fun e => matEntry path index e)).sum)
    with hepdef
  set sb2 := sv.map (fun i => sb.getD i 0) with hsb2def
  set ep2 := sv.map (fun i => ep.getD i 0) with hep2def
  set NP := sv.map (fun r => sv.map (fun c => matEntry path r c)) with hNPdef
  have hbri : (compressed_paths entrances exits path).1
      = ((sb.enum.filter (fun ib => decide (ib.1 ∈ exits))).map Prod.snd).sum :=
    rfl
  have hR : (compressed_paths entrances exits path).2
      = assembleR sb2 ep2 NP := rfl
  have hsb := foldl_zipWith_spec hrow entrances
    (List.replicate path.length 0) hSsub (by rw [List.length_replicate])
  have hsblen : sb.length = path.length := hsb.1
  have hsbget : ∀ i, i < path.length →
      sb.getD i 0 = (entrances.map (fun s => matEntry path s i)).sum := by
    intro i hi
    rw [hsbdef, hsb.2 i hi, getD_replicate_zero]
    ring
  have hepget : ∀ i, i < path.length →
      ep.getD i 0 = (exits.map (fun t => matEntry path i t)).sum := by
    intro i hi
    have h2 : i < (List.range path.length).length := by
      rw [List.length_range]; exact hi
    rw [hepdef, getD_map_of_lt _ 0 0 h2, List.getD_eq_getElem _ 0 h2,
      List.getElem_range]
  have hsvmem : ∀ i, i < sv.length →
      sv.getD i 0 < path.length ∧ sv.getD i 0 ∉ entrances
        ∧ sv.getD i 0 ∉ exits := by
    intro i hi
    have hmem : sv.getD i 0 ∈ sv := by
      rw [List.getD_eq_getElem _ 0 hi]
      exact List.getElem_mem ..
    exact mem_survivors.mp hmem
  have hsb2len : sb2.length = sv.length := by rw [hsb2def, List.length_map]
  have hNPlen : NP.length = sv.length := by rw [hNPdef, List.length_map]
  have hNPget : ∀ i, i < sv.length →
      NP.getD i [] = sv.map (fun c => matEntry path (sv.getD i 0) c) := by
    intro i hi
    rw [hNPdef, getD_map_of_lt _ 0 [] hi]
  have hNProw : ∀ i, i < sv.length → (NP.getD i []).length = sv.length := by
    intro i hi
    rw [hNPget i hi, List.length_map]
  refine ⟨?_, ?_, ?_, ?_, ?_, ?_, ?_, ?_⟩
  · rw [hbri]
    have hstep1 := congrArg List.sum
      (enum_filter_sum (fun i => decide (i ∈ exits)) sb)
    rw [hstep1]
    have hperm := (filter_range_perm (N := sb.length) hTnd
      (fun t ht => by rw [hsblen]; exact hTsub t ht)).map
      (fun i => sb.getD i 0)
    rw [hperm.sum_eq]
    have hcongr : exits.map (fun t => sb.getD t 0)
        = exits.map (fun t =>
            (entrances.map (fun s => matEntry path s t)).sum) :=
      List.map_congr_left (fun t ht => hsbget t (hTsub t ht))
    rw [hcongr, ← sum_map_swap]
  · exact survivors_length hSnd hTnd hdisj hSsub hTsub
  · rw [hR, assembleR_length, hNPlen]
  · rw [hR]
    intro row hmem
    refine assembleR_rows_length ep2 hsb2len ?_ row hmem
    intro r hr
    rw [hNPdef] at hr
    obtain ⟨a, -, rfl⟩ := List.mem_map.mp hr
    rw [List.length_map]
  · intro i hi
    rw [hR, assembleR_row0 sb2 ep2 NP (by omega)]
    rw [hsb2def, getD_map_of_lt _ 0 0 hi]
    exact hsbget _ (hsvmem i hi).1
  · intro i hi
    rw [hR, assembleR_last_col sb2 ep2 NP (by omega) (hNProw i hi)]
    rw [hep2def, getD_map_of_lt _ 0 0 hi]
    exact hepget _ (hsvmem i hi).1
  · intro i j hi hj
    rw [hR, assembleR_interior sb2 ep2 NP (by omega) (by rw [hNProw i hi]; omega)]
    rw [hNPget i hi, getD_map_of_lt _ 0 0 hj]
  · intro j
    rw [hR, show sv.length = NP.length from hNPlen.symm]
    exact assembleR_last_row sb2 ep2 NP j

lemma compressed_extra_entries (entrances exits : List Nat)
    (path : List (List Int)) :
    matEntry (compressed_paths entrances exits path).2 0 0 = 0
    ∧ matEntry (compressed_paths entrances exits path).2 0
        ((survivors path.length entrances exits).length + 1) = 0
    ∧ ∀ i, i < (survivors path.length entrances exits).length →
        matEntry (compressed_paths entrances exits path).2 (i + 1) 0 = 0 := by
  set sv := survivors path.length entrances exits with hsvdef
  set sb := entrances.foldl
    (fun acc e => List.zipWith (· + ·) acc (path.getD e []))
    (List.replicate path.length (0 : Int)) with hsbdef
  set ep := (List.range path.length).map
    (fun index => (exits.map (fun e => matEntry path index e)).sum)
    with hepdef
  set sb2 := sv.map (fun i => sb.getD i 0) with hsb2def
  set ep2 := sv.map (fun i => ep.getD i 0) with hep2def
  set NP := sv.map (fun r => sv.map (fun c => matEntry path r c)) with hNPdef
  have hR : (compressed_paths entrances exits path).2
      = assembleR sb2 ep2 NP := rfl
  have hsb2len : sb2.length = sv.length := by rw [hsb2def, List.length_map]
  have hNPlen : NP.length = sv.length := by rw [hNPdef, List.length_map]
  refine ⟨?_, ?_, ?_⟩
  · rw [hR]; exact assembleR_corner_left sb2 ep2 NP
  · rw [hR, ← hsb2len]; exact assembleR_corner_right sb2 ep2 NP
  · intro i hi
    rw [hR]; exact assembleR_col0 sb2 ep2 NP (by omega)

lemma reduced_nonneg {entrances exits : List Nat} {path : List (List Int)}
    (hrow : ∀ row ∈ path, row.length = path.length)
    (hvals : ∀ row ∈ path, ∀ x ∈ row, 0 ≤ x)
    (hSsub : ∀ s ∈ entrances, s < path.length) :
    ∀ u v, 0 ≤ matEntry (compressed_paths entrances exits path).2 u v := by
  have hc := matEntry_nonneg hvals
  set sv := survivors path.length entrances exits with hsvdef
  set sb := entrances.foldl
    (fun acc e => List.zipWith (· + ·) acc (path.getD e []))
    (List.replicate path.length (0 : Int)) with hsbdef
  set ep := (List.range path.length).map
    (fun index => (exits.map (fun e => matEntry path index e)).sum)
    with hepdef
  set sb2 := sv.map (fun i => sb.getD i 0) with hsb2def
  set ep2 := sv.map (fun i => ep.getD i 0) with hep2def
  set NP := sv.map (fun r => sv.map (fun c => matEntry path r c)) with hNPdef
  have hR : (compressed_paths entrances exits path).2
      = assembleR sb2 ep2 NP := rfl
  have hsb := foldl_zipWith_spec hrow entrances
    (List.replicate path.length 0) hSsub (by rw [List.length_replicate])
  have hsbge : ∀ i, 0 ≤ sb.getD i 0 := by
    intro i
    rcases lt_or_ge i path.length with hi | hi
    · rw [hsbdef, hsb.2 i hi, getD_replicate_zero]
      have hnn : ∀ x ∈ entrances.map (fun s => matEntry path s i), 0 ≤ x := by
        intro x hx
        obtain ⟨s, -, rfl⟩ := List.mem_map.mp hx
        exact hc s i
      have hs := List.sum_nonneg hnn
      omega
    · rw [List.getD_eq_default]
      rw [hsb.1]
      exact hi
  have hepge : ∀ i, 0 ≤ ep.getD i 0 := by
    intro i
    rcases lt_or_ge i path.length with hi | hi
    · rw [hepdef, getD_map_of_lt _ 0 0 (by rw [List.length_range]; exact hi)]
      apply List.sum_nonneg
      intro x hx
      obtain ⟨t, -, rfl⟩ := List.mem_map.mp hx
      exact hc _ t
    · rw [List.getD_eq_default]
      rw [hepdef, List.length_map, List.length_range]
      exact hi
  have hep2ge : ∀ k, 0 ≤ ep2.getD k 0 := by
    intro k
    rcases lt_or_ge k ep2.length with hk | hk
    · have hk2 : k < sv.length := by
        rw [hep2def, List.length_map] at hk
        exact hk
      rw [hep2def, getD_map_of_lt _ 0 0 hk2]
      exact hepge _
    · rw [List.getD_eq_default _ _ hk]
  rw [hR]
  apply matEntry_nonneg
  intro row hmem
  unfold assembleR at hmem
  rcases List.mem_append.mp hmem with hmem | hmem
  · rcases List.mem_cons.mp hmem with rfl | hmem
    · intro x hx
      rcases List.mem_append.mp hx with hx | hx
      · rcases List.mem_cons.mp hx with rfl | hx
        · exact le_refl 0
        · obtain ⟨i, -, rfl⟩ := List.mem_map.mp hx
          exact hsbge i
      · rw [List.mem_singleton.mp hx]
    · obtain ⟨ir, hir, rfl⟩ := List.mem_map.mp hmem
      intro x hx
      rcases List.mem_cons.mp hx with rfl | hx
      · exact le_refl 0
      · rcases List.mem_append.mp hx with hx | hx
        · have hr2 : ir.2 ∈ NP := by
            have h1 := List.enum_map_snd NP
            have h2 : ir.2 ∈ NP.enum.map Prod.snd := List.mem_map_of_mem _ hir
            rw [h1] at h2
            exact h2
          rw [hNPdef] at hr2
          obtain ⟨r, -, hreq⟩ := List.mem_map.mp hr2
          rw [← hreq] at hx
          obtain ⟨cc, -, rfl⟩ := List.mem_map.mp hx
          exact hc r cc
        · rw [List.mem_singleton.mp hx]
          exact hep2ge ir.1
  · rw [List.mem_singleton.mp hmem]
    intro x hx
    rw [List.eq_of_mem_replicate hx]

/-- C3: the graph reducer.  For every square matrix and non-empty disjoint
source and sink index sets within range, `compressed_paths` returns the
bypass flow — the sum over all pairs `(s, t)` of `capacity[s][t]` — together
with a reduced square matrix of size `N - |S| - |T| + 2` in which row `0`
gives, for each surviving node, the summed capacity from all sources into
it, the last column gives the summed capacity from it into all sinks, every
pair of surviving nodes keeps its original edge capacity, and the last row
is all zeros. -/
theorem claim_C3_reducer (entrances exits : List Nat) (path : List (List Int))
    (hrow : ∀ row ∈ path, row.length = path.length)
    (hSnd : entrances.Nodup) (hTnd : exits.Nodup)
    (hdisj : ∀ x ∈ entrances, x ∉ exits)
    (hSsub : ∀ s ∈ entrances, s < path.length)
    (hTsub : ∀ t ∈ exits, t < path.length)
    (_hSne : entrances ≠ []) (_hTne : exits ≠ []) :
    (compressed_paths entrances exits path).1
      = (entrances.map
          (fun s => (exits.map (fun t => matEntry path s t)).sum)).sum
    ∧ (survivors path.length entrances exits).length
        = path.length - entrances.length - exits.length
    ∧ (compressed_paths entrances exits path).2.length
        = (survivors path.length entrances exits).length + 2
    ∧ (∀ row ∈ (compressed_paths entrances exits path).2,
        row.length = (survivors path.length entrances exits).length + 2)
    ∧ (∀ i, i < (survivors path.length entrances exits).length →
        matEntry (compressed_paths entrances exits path).2 0 (i + 1)
          = (entrances.map (fun s => matEntry path s
              ((survivors path.length entrances exits).getD i 0))).sum)
    ∧ (∀ i, i < (survivors path.length entrances exits).length →
        matEntry (compressed_paths entrances exits path).2 (i + 1)
            ((survivors path.length entrances exits).length + 1)
          = (exits.map (fun t => matEntry path
              ((survivors path.length entrances exits).getD i 0) t)).sum)
    ∧ (∀ i j, i < (survivors path.length entrances exits).length →
        j < (survivors path.length entrances exits).length →
        matEntry (compressed_paths entrances exits path).2 (i + 1) (j + 1)
          = matEntry path ((survivors path.length entrances exits).getD i 0)
              ((survivors path.length entrances exits).getD j 0))
    ∧ (∀ j, matEntry (compressed_paths entrances exits path).2
        ((survivors path.length entrances exits).length + 1) j = 0) :=
  compressed_paths_spec entrances exits path hrow hSnd hTnd hdisj hSsub hTsub

/-- Witness for C3 at the second scenario input: sources `[0,1]`, sinks
`[4,5]`, the 6×6 capacity matrix. -/
theorem claim_C3_witness :
    (compressed_paths [0, 1] [4, 5]
        [[0, 0, 4, 6, 0, 0], [0, 0, 5, 2, 0, 0], [0, 0, 0, 0, 4, 4],
         [0, 0, 0, 0, 6, 6], [0, 0, 0, 0, 0, 0], [0, 0, 0, 0, 0, 0]]).1
      = (([0, 1] : List Nat).map (fun s =>
          (([4, 5] : List Nat).map (fun t => matEntry
            [[0, 0, 4, 6, 0, 0], [0, 0, 5, 2, 0, 0], [0, 0, 0, 0, 4, 4],
             [0, 0, 0, 0, 6, 6], [0, 0, 0, 0, 0, 0], [0, 0, 0, 0, 0, 0]]
            s t)).sum)).sum
    ∧ ∀ i j, i < (survivors 6 [0, 1] [4, 5]).length →
        j < (survivors 6 [0, 1] [4, 5]).length →
        matEntry (compressed_paths [0, 1] [4, 5]
            [[0, 0, 4, 6, 0, 0], [0, 0, 5, 2, 0, 0], [0, 0, 0, 0, 4, 4],
             [0, 0, 0, 0, 6, 6], [0, 0, 0, 0, 0, 0], [0, 0, 0, 0, 0, 0]]).2
            (i + 1) (j + 1)
          = matEntry
              [[0, 0, 4, 6, 0, 0], [0, 0, 5, 2, 0, 0], [0, 0, 0, 0, 4, 4],
               [0, 0, 0, 0, 6, 6], [0, 0, 0, 0, 0, 0], [0, 0, 0, 0, 0, 0]]
              ((survivors 6 [0, 1] [4, 5]).getD i 0)
              ((survivors 6 [0, 1] [4, 5]).getD j 0) :=
  ⟨(claim_C3_reducer [0, 1] [4, 5]
      [[0, 0, 4, 6, 0, 0], [0, 0, 5, 2, 0, 0], [0, 0, 0, 0, 4, 4],
       [0, 0, 0, 0, 6, 6], [0, 0, 0, 0, 0, 0], [0, 0, 0, 0, 0, 0]]
      (by decide) (by decide) (by decide) (by decide) (by decide) (by decide)
      (by decide) (by decide)).1,
    (claim_C3_reducer [0, 1] [4, 5]
      [[0, 0, 4, 6, 0, 0], [0, 0, 5, 2, 0, 0], [0, 0, 0, 0, 4, 4],
       [0, 0, 0, 0, 6, 6], [0, 0, 0, 0, 0, 0], [0, 0, 0, 0, 0, 0]]
      (by decide) (by decide) (by decide) (by decide) (by decide) (by decide)
      (by decide) (by decide)).2.2.2.2.2.2.1⟩

/-- C8: for every input satisfying the preconditions, the result of
`solution` is non-negative and at most the sum of the capacities leaving
all source nodes. -/
theorem claim_C8_bounds (entrances exits : List Nat) (path : List (List Int))
    (hrow : ∀ row ∈ path, row.length = path.length)
    (hvals : ∀ row ∈ path, ∀ x ∈ row, 0 ≤ x)
    (hSnd : entrances.Nodup) (hTnd : exits.Nodup)
    (hdisj : ∀ x ∈ entrances, x ∉ exits)
    (hSsub : ∀ s ∈ entrances, s < path.length)
    (hTsub : ∀ t ∈ exits, t < path.length)
    (_hSne : entrances ≠ []) (_hTne : exits ≠ [])
    (_hN2 : 2 ≤ path.length) :
    0 ≤ solution entrances exits path
    ∧ solution entrances exits path
        ≤ (entrances.map (fun s => (path.getD s []).sum)).sum := by
  obtain ⟨hbri, hsvlen, hRlen, hRrows, hrow0, hlastcol, hint, hlastrow⟩ :=
    compressed_paths_spec entrances exits path hrow hSnd hTnd hdisj hSsub hTsub
  obtain ⟨hc00, hc0last, -⟩ := compressed_extra_entries entrances exits path
  have hcnn := @reduced_nonneg _ exits _ hrow hvals hSsub
  set R := (compressed_paths entrances exits path).2 with hRdef
  set sv := survivors path.length entrances exits with hsvdef
  set L := sv.length with hLdef
  have hM2 : 2 ≤ R.length := by rw [hRlen]; omega
  obtain ⟨inv, hnone, hge0⟩ := finalFlow_spec hM2 hcnn
  have hsol : solution entrances exits path
      = (compressed_paths entrances exits path).1
        + maximum_bunnies_rescuable R := rfl
  have hval : maximum_bunnies_rescuable R
      = flowValue R.length (finalFlow R.length (matEntry R)) :=
    (rfl : maximum_bunnies_rescuable R
      = sinkInflow R.length (finalFlow R.length (matEntry R))).trans inv.valeq
  have hbrige : 0 ≤ (compressed_paths entrances exits path).1 := by
    rw [hbri]
    apply List.sum_nonneg
    intro x hx
    obtain ⟨s, -, rfl⟩ := List.mem_map.mp hx
    apply List.sum_nonneg
    intro y hy
    obtain ⟨t, -, rfl⟩ := List.mem_map.mp hy
    exact matEntry_nonneg hvals s t
  constructor
  · rw [hsol, hval]
    omega
  · have hup : flowValue R.length (finalFlow R.length (matEntry R))
        ≤ ∑ u ∈ Finset.range R.length, matEntry R 0 u :=
      Finset.sum_le_sum (fun u _ => inv.bounded 0 u)
    have hrow0sum : (∑ u ∈ Finset.range R.length, matEntry R 0 u)
        = ∑ i ∈ Finset.range L, (entrances.map
            (fun s => matEntry path s (sv.getD i 0))).sum := by
      rw [hRlen, show L + 2 = (L + 1) + 1 from rfl, Finset.sum_range_succ,
        hc0last, Finset.sum_range_succ', hc00, add_zero, add_zero]
      exact Finset.sum_congr rfl (fun i hi => hrow0 i (Finset.mem_range.mp hi))
    have hswap : (∑ i ∈ Finset.range L, (entrances.map
          (fun s => matEntry path s (sv.getD i 0))).sum)
        = (entrances.map (fun s => ∑ i ∈ Finset.range L,
            matEntry path s (sv.getD i 0))).sum :=
      (list_finset_sum_swap (Finset.range L)
        (fun s i => matEntry path s (sv.getD i 0)) entrances).symm
    have hcomb : (compressed_paths entrances exits path).1
          + (∑ i ∈ Finset.range L, (entrances.map
              (fun s => matEntry path s (sv.getD i 0))).sum)
        = (entrances.map (fun s =>
            (exits.map (fun t => matEntry path s t)).sum
            + ∑ i ∈ Finset.range L, matEntry path s (sv.getD i 0))).sum := by
      rw [hbri, hswap, ← sum_map_add]
    have hdisjTsv : Disjoint exits.toFinset sv.toFinset := by
      rw [Finset.disjoint_left]
      intro v hv hv2
      rw [List.mem_toFinset] at hv hv2
      exact (mem_survivors.mp hv2).2.2 hv
    have hper : ∀ s ∈ entrances,
        (exits.map (fun t => matEntry path s t)).sum
          + (∑ i ∈ Finset.range L, matEntry path s (sv.getD i 0))
        ≤ (path.getD s []).sum := by
      intro s hs
      have hrs : (path.getD s []).sum
          = ∑ v ∈ Finset.range path.length, matEntry path s v := by
        have hlen : (path.getD s []).length = path.length := by
          rw [List.getD_eq_getElem path [] (hSsub s hs)]
          exact hrow _ (List.getElem_mem ..)
        rw [sum_list_eq_sum_range (path.getD s []), hlen]
        rfl
      have hTfin : (exits.map (fun t => matEntry path s t)).sum
          = ∑ t ∈ exits.toFinset, matEntry path s t :=
        (List.sum_toFinset _ hTnd).symm
      have hsvsum : (∑ i ∈ Finset.range L, matEntry path s (sv.getD i 0))
          = ∑ v ∈ sv.toFinset, matEntry path s v := by
        have h1 : (sv.map (fun v => matEntry path s v)).sum
            = ∑ i ∈ Finset.range L, matEntry path s (sv.getD i 0) := by
          rw [sum_list_eq_sum_range, List.length_map]
          apply Finset.sum_congr rfl
          intro i hi
          rw [getD_map_of_lt _ 0 0 (Finset.mem_range.mp hi)]
        rw [← h1, ← List.sum_toFinset _ (survivors_nodup path.length entrances exits)]
      rw [hrs, hTfin, hsvsum, ← Finset.sum_union hdisjTsv]
      apply Finset.sum_le_sum_of_subset_of_nonneg
      · intro v hv
        rcases Finset.mem_union.mp hv with hv | hv
        · rw [List.mem_toFinset] at hv
          exact Finset.mem_range.mpr (hTsub v hv)
        · rw [List.mem_toFinset] at hv
          exact Finset.mem_range.mpr (mem_survivors.mp hv).1
      · intro v _ _
        exact matEntry_nonneg hvals s v
    calc solution entrances exits path
        = (compressed_paths entrances exits path).1
          + flowValue R.length (finalFlow R.length (matEntry R)) := by
          rw [hsol, hval]
      _ ≤ (compressed_paths entrances exits path).1
          + ∑ i ∈ Finset.range L, (entrances.map
              (fun s => matEntry path s (sv.getD i 0))).sum := by
          rw [← hrow0sum]
          omega
      _ = (entrances.map (fun s =>
            (exits.map (fun t => matEntry path s t)).sum
            + ∑ i ∈ Finset.range L, matEntry path s (sv.getD i 0))).sum :=
          hcomb
      _ ≤ (entrances.map (fun s => (path.getD s []).sum)).sum :=
          List.sum_le_sum hper

/-- Witness for C8 at the first scenario input. -/
theorem claim_C8_witness :
    0 ≤ solution [0] [3] [[0, 7, 0, 0], [0, 0, 6, 0], [0, 0, 0, 8], [9, 0, 0, 0]]
    ∧ solution [0] [3] [[0, 7, 0, 0], [0, 0, 6, 0], [0, 0, 0, 8], [9, 0, 0, 0]]
        ≤ (([0] : List Nat).map (fun s =>
            (([[0, 7, 0, 0], [0, 0, 6, 0], [0, 0, 0, 8], [9, 0, 0, 0]]
              : List (List Int)).getD s []).sum)).sum :=
  claim_C8_bounds [0] [3]
    [[0, 7, 0, 0], [0, 0, 6, 0], [0, 0, 0, 8], [9, 0, 0, 0]]
    (by decide) (by decide) (by decide) (by decide) (by decide) (by decide)
    (by decide) (by decide) (by decide) (by decide)

/-! ### Cuts and the max-flow min-cut argument -/

/-- The capacity crossing a cut: total capacity on edges from inside `A` to
outside `A` (within the node range). -/
def capAcross (N : Nat) (c : Nat → Nat → Int) (A : Finset Nat) : Int :=
  ∑ u ∈ A, ∑ v ∈ Finset.range N \ A, c u v

/-- The source/sink cuts of a single-source single-sink network on nodes
`0 .. N-1`: subsets containing the source `0` but not the sink `N - 1`. -/
def cutsOf (N : Nat) : Finset (Finset Nat) :=
  (Finset.range N).powerset.filter (fun A => 0 ∈ A ∧ N - 1 ∉ A)

/-- Modelled from the spec: the minimum-cut capacity of the reduced
single-source/single-sink network, as the infimum over all source/sink
cuts. -/
def minCutW (N : Nat) (c : Nat → Nat → Int) : WithTop Int :=
  (cutsOf N).inf (fun A => ((capAcross N c A : Int) : WithTop Int))

/-- The source/sink cuts of the original multi-source/multi-sink problem:
subsets of the node range containing every source and no sink. -/
def origCuts (N : Nat) (S T : List Nat) : Finset (Finset Nat) :=
  (Finset.range N).powerset.filter
    (fun A => (∀ s ∈ S, s ∈ A) ∧ ∀ t ∈ T, t ∉ A)

/-- Modelled from the spec: the minimum-cut capacity separating the source
set from the sink set in the original capacity matrix. -/
def minCutOrigW (N : Nat) (c : Nat → Nat → Int) (S T : List Nat) :
    WithTop Int :=
  (origCuts N S T).inf (fun A => ((capAcross N c A : Int) : WithTop Int))

lemma sum_sum_skew_zero {A : Finset Nat} {f : Nat → Nat → Int}
    (hskew : ∀ u v, f u v = - f v u) :
    ∑ u ∈ A, ∑ v ∈ A, f u v = 0 := by
  have h1 : (∑ u ∈ A, ∑ v ∈ A, f u v) = ∑ v ∈ A, ∑ u ∈ A, f u v :=
    Finset.sum_comm
  have h2 : (∑ v ∈ A, ∑ u ∈ A, f u v)
      = -(∑ v ∈ A, ∑ u ∈ A, f v u) := by
    rw [← Finset.sum_neg_distrib]
    refine Finset.sum_congr rfl (fun v _ => ?_)
    rw [← Finset.sum_neg_distrib]
    exact Finset.sum_congr rfl (fun u _ => hskew u v)
  have h3 : (∑ v ∈ A, ∑ u ∈ A, f v u) = ∑ u ∈ A, ∑ v ∈ A, f u v := rfl
  rw [h3] at h2
  omega

lemma flowValue_eq_cut_netflow {N : Nat} {c f : Nat → Nat → Int}
    (inv : EngineInv N c f) {A : Finset Nat} (hA : A ⊆ Finset.range N)
    (h0 : 0 ∈ A) (hs : N - 1 ∉ A) :
    flowValue N f = ∑ u ∈ A, ∑ v ∈ Finset.range N \ A, f u v := by
  have hrowzero : ∀ u, u ≠ 0 → u ≠ N - 1 →
      (∑ v ∈ Finset.range N, f u v) = 0 := by
    intro u hu0 huN
    have h1 : (∑ v ∈ Finset.range N, f u v)
        = -(∑ v ∈ Finset.range N, f v u) := by
      rw [← Finset.sum_neg_distrib]
      exact Finset.sum_congr rfl (fun v _ => inv.skew u v)
    rw [h1, inv.conserv u hu0 huN]
    ring
  have hstep1 : (∑ u ∈ A, ∑ v ∈ Finset.range N, f u v) = flowValue N f := by
    rw [← Finset.add_sum_erase _ _ h0]
    have h2 : (∑ u ∈ A.erase 0, ∑ v ∈ Finset.range N, f u v) = 0 := by
      apply Finset.sum_eq_zero
      intro u hu
      have hu0 : u ≠ 0 := (Finset.mem_erase.mp hu).1
      have huN : u ≠ N - 1 := by
        intro hcon
        rw [hcon] at hu
        exact hs (Finset.erase_subset _ _ hu)
      exact hrowzero u hu0 huN
    rw [h2, flowValue]
    ring
  have hsplit : ∀ u, (∑ v ∈ Finset.range N, f u v)
      = (∑ v ∈ Finset.range N \ A, f u v) + (∑ v ∈ A, f u v) := by
    intro u
    rw [Finset.sum_sdiff hA]
  have hstep2 : (∑ u ∈ A, ∑ v ∈ Finset.range N, f u v)
      = (∑ u ∈ A, ∑ v ∈ Finset.range N \ A, f u v)
        + (∑ u ∈ A, ∑ v ∈ A, f u v) := by
    rw [← Finset.sum_add_distrib]
    exact Finset.sum_congr rfl (fun u _ => hsplit u)
  rw [sum_sum_skew_zero inv.skew] at hstep2
  omega

lemma flowValue_le_capAcross {N : Nat} {c f : Nat → Nat → Int}
    (inv : EngineInv N c f) {A : Finset Nat} (hA : A ⊆ Finset.range N)
    (h0 : 0 ∈ A) (hs : N - 1 ∉ A) :
    flowValue N f ≤ capAcross N c A := by
  rw [flowValue_eq_cut_netflow inv hA h0 hs, capAcross]
  exact Finset.sum_le_sum (fun u _ =>
    Finset.sum_le_sum (fun v _ => inv.bounded u v))

/-- The rooms reachable from the source along corridors with strictly
positive residual capacity: the last rooms of all partial paths the BFS can
build. -/
def reachSet (N : Nat) (c f : Nat → Nat → Int) : Finset Nat :=
  (((List.range N).flatMap (levels N c f)).map
    (fun p => p.getLastD 0)).toFinset

lemma mem_reachSet {N : Nat} {c f : Nat → Nat → Int} {x : Nat} :
    x ∈ reachSet N c f
      ↔ ∃ k, k < N ∧ ∃ p ∈ levels N c f k, p.getLastD 0 = x := by
  rw [reachSet, List.mem_toFinset, List.mem_map]
  constructor
  · rintro ⟨p, hp, rfl⟩
    rw [List.mem_flatMap] at hp
    obtain ⟨k, hk, hpk⟩ := hp
    rw [List.mem_range] at hk
    exact ⟨k, hk, p, hpk, rfl⟩
  · rintro ⟨k, hk, p, hp, rfl⟩
    exact ⟨p, List.mem_flatMap.mpr ⟨k, List.mem_range.mpr hk, hp⟩, rfl⟩

lemma getLastD_of_ne_nil {l : List Nat} (h : l ≠ []) :
    l.getLastD 0 = l.getLast h := by
  rw [List.getLastD_eq_getLast?, List.getLast?_eq_getLast l h]
  rfl

lemma levels_ne_nil {N : Nat} {c f : Nat → Nat → Int} {k : Nat}
    {p : List Nat} (hp : p ∈ levels N c f k) : p ≠ [] := by
  have := length_of_mem_levels hp
  intro hcon
  rw [hcon] at this
  simp at this

lemma zero_mem_reachSet {N : Nat} (hN : 1 ≤ N) (c f : Nat → Nat → Int) :
    0 ∈ reachSet N c f :=
  mem_reachSet.mpr ⟨0, hN, [0], by simp [levels], rfl⟩

lemma reachSet_subset {N : Nat} (hN : 1 ≤ N) (c f : Nat → Nat → Int) :
    reachSet N c f ⊆ Finset.range N := by
  intro x hx
  obtain ⟨k, hk, p, hp, rfl⟩ := mem_reachSet.mp hx
  obtain ⟨hlen, -, -, hmem, -⟩ := (mem_levels_iff hN).mp hp
  have hne : p ≠ [] := levels_ne_nil hp
  rw [getLastD_of_ne_nil hne]
  exact Finset.mem_range.mpr (hmem _ (List.getLast_mem hne))

lemma take_mem_levels {N : Nat} (hN : 1 ≤ N) {c f : Nat → Nat → Int}
    {p : List Nat} {k : Nat} (hp : p ∈ levels N c f k) {j : Nat}
    (hj : j < p.length) : p.take (j + 1) ∈ levels N c f j := by
  obtain ⟨hlen, hhead, hnd, hmem, hchain⟩ := (mem_levels_iff hN).mp hp
  refine (mem_levels_iff hN).mpr ⟨?_, ?_, ?_, ?_, ?_⟩
  · rw [List.length_take]
    omega
  · rcases p with _ | ⟨a, t⟩
    · simp at hlen
    · simpa using hhead
  · exact hnd.sublist (List.take_sublist ..)
  · intro x hx
    exact hmem x ((List.take_sublist ..).mem hx)
  · exact hchain.take _

lemma getLastD_take {p : List Nat} {j : Nat} (hj : j < p.length) :
    (p.take (j + 1)).getLastD 0 = p.get ⟨j, hj⟩ := by
  have htne : p.take (j + 1) ≠ [] := by
    intro hcon
    have h2 := congrArg List.length hcon
    rw [List.length_take] at h2
    simp only [List.length_nil] at h2
    omega
  rw [getLastD_of_ne_nil htne, List.getLast_eq_getElem]
  have hlen : (p.take (j + 1)).length = j + 1 := by
    rw [List.length_take]
    omega
  have hidx : (p.take (j + 1)).length - 1 < (p.take (j + 1)).length := by
    omega
  rw [List.getElem_take]
  simp only [List.get_eq_getElem]
  congr 1
  omega

lemma reachSet_closed {N : Nat} (hN : 1 ≤ N) {c f : Nat → Nat → Int}
    {u v : Nat} (hu : u ∈ reachSet N c f) (hv : v < N)
    (hres : 0 < residual c f u v) : v ∈ reachSet N c f := by
  obtain ⟨k, hk, p, hp, hlast⟩ := mem_reachSet.mp hu
  obtain ⟨hlen, hhead, hnd, hmem, hchain⟩ := (mem_levels_iff hN).mp hp
  have hne : p ≠ [] := levels_ne_nil hp
  by_cases hvp : v ∈ p
  · obtain ⟨j, hj, hjv⟩ := List.mem_iff_getElem.mp hvp
    have hjN : j < N := by
      have := length_le_of_nodup_of_lt hnd hmem
      omega
    refine mem_reachSet.mpr ⟨j, hjN, p.take (j + 1),
      take_mem_levels hN hp hj, ?_⟩
    rw [getLastD_take hj]
    simpa [List.get_eq_getElem] using hjv
  · have hq : p ++ [v] ∈ levels N c f (k + 1) := by
      refine (mem_levels_iff hN).mpr ⟨?_, ?_, ?_, ?_, ?_⟩
      · rw [List.length_append, hlen]
        simp
      · rcases p with _ | ⟨a, t⟩
        · exact absurd rfl hne
        · simpa using hhead
      · exact hnd.append (List.nodup_singleton v)
          (by simpa [List.disjoint_singleton] using hvp)
      · intro x hx
        rcases List.mem_append.mp hx with h | h
        · exact hmem x h
        · rw [List.mem_singleton.mp h]
          exact hv
      · rw [List.chain'_append]
        refine ⟨hchain, List.chain'_singleton v, ?_⟩
        intro x hx y hy
        simp only [List.head?_cons, Option.mem_def, Option.some.injEq] at hy
        subst hy
        rw [Option.mem_def, List.getLast?_eq_getLast p hne,
          Option.some.injEq] at hx
        have hxu : x = u := by
          rw [← hx]
          rw [getLastD_of_ne_nil hne] at hlast
          exact hlast
        rw [hxu]
        exact hres
    have hk1 : k + 1 < N := by
      have h1 := length_le_of_nodup_of_lt
        ((mem_levels_iff hN).mp hq).2.2.1 ((mem_levels_iff hN).mp hq).2.2.2.1
      have h2 := length_of_mem_levels hq
      omega
    exact mem_reachSet.mpr ⟨k + 1, hk1, p ++ [v], hq,
      List.getLastD_concat ..⟩

lemma reachSet_no_sink {N : Nat} (hN : 1 ≤ N) {c f : Nat → Nat → Int}
    (hfind : find_bunny_path N c f = none) : N - 1 ∉ reachSet N c f := by
  intro hmem
  obtain ⟨k, hk, p, hp, hlast⟩ := mem_reachSet.mp hmem
  have hsink : endsAtSink N p := by
    rw [endsAtSink, hlast]
    omega
  obtain ⟨k1, L1, p1, L2, h1, h2, h3, h4, hfind2⟩ := find_first_sink hN c f
    ⟨k, p, hp, hsink⟩
  rw [hfind] at hfind2
  exact Option.noConfusion hfind2

lemma finalFlow_value_eq_minCut {N : Nat} (hN : 2 ≤ N)
    {c : Nat → Nat → Int} (hc : ∀ u v, 0 ≤ c u v) :
    ((flowValue N (finalFlow N c) : Int) : WithTop Int) = minCutW N c
    ∧ capAcross N c (reachSet N c (finalFlow N c))
        = flowValue N (finalFlow N c)
    ∧ reachSet N c (finalFlow N c) ∈ cutsOf N := by
  obtain ⟨inv, hnone, -⟩ := finalFlow_spec hN hc
  have hN1 : 1 ≤ N := by omega
  have hsub := reachSet_subset hN1 c (finalFlow N c)
  have h0 := zero_mem_reachSet hN1 c (finalFlow N c)
  have hs := reachSet_no_sink hN1 hnone
  have hcross : ∀ u ∈ reachSet N c (finalFlow N c),
      ∀ v ∈ Finset.range N \ reachSet N c (finalFlow N c),
      finalFlow N c u v = c u v := by
    intro u hu v hv
    obtain ⟨hvN, hvR⟩ := Finset.mem_sdiff.mp hv
    have hnres : ¬ (0 < residual c (finalFlow N c) u v) := by
      intro hres
      exact hvR (reachSet_closed hN1 hu (Finset.mem_range.mp hvN) hres)
    have hb := inv.bounded u v
    simp only [residual, not_lt] at hnres
    omega
  have hcap : capAcross N c (reachSet N c (finalFlow N c))
      = flowValue N (finalFlow N c) := by
    rw [flowValue_eq_cut_netflow inv hsub h0 hs, capAcross]
    exact Finset.sum_congr rfl (fun u hu =>
      Finset.sum_congr rfl (fun v hv => (hcross u hu v hv).symm))
  have hmem : reachSet N c (finalFlow N c) ∈ cutsOf N := by
    rw [cutsOf, Finset.mem_filter, Finset.mem_powerset]
    exact ⟨hsub, h0, hs⟩
  refine ⟨le_antisymm ?_ ?_, hcap, hmem⟩
  · apply Finset.le_inf
    intro A hA
    rw [cutsOf, Finset.mem_filter, Finset.mem_powerset] at hA
    obtain ⟨hAsub, hA0, hAs⟩ := hA
    exact WithTop.coe_le_coe.mpr
      (flowValue_le_capAcross inv hAsub hA0 hAs)
  · have hle : minCutW N c
        ≤ ((capAcross N c (reachSet N c (finalFlow N c)) : Int)
            : WithTop Int) :=
      Finset.inf_le hmem
    rw [hcap] at hle
    exact hle

/-- Correspondence between the cuts of the original multi-source problem
and the cuts of the reduced network: a cut determined by the surviving-node
position set `I` has original capacity equal to the bypass flow plus the
reduced capacity of the corresponding reduced cut. -/
lemma cut_correspondence (entrances exits : List Nat) (path : List (List Int))
    (hrow : ∀ row ∈ path, row.length = path.length)
    (hSnd : entrances.Nodup) (hTnd : exits.Nodup)
    (hdisj : ∀ x ∈ entrances, x ∉ exits)
    (hSsub : ∀ s ∈ entrances, s < path.length)
    (hTsub : ∀ t ∈ exits, t < path.length)
    (I : Finset Nat)
    (hI : I ⊆ Finset.range (survivors path.length entrances exits).length) :
    capAcross path.length (matEntry path)
        (entrances.toFinset ∪ I.image
          (fun i => (survivors path.length entrances exits).getD i 0))
      = (compressed_paths entrances exits path).1
        + capAcross ((survivors path.length entrances exits).length + 2)
            (matEntry (compressed_paths entrances exits path).2)
            (insert 0 (I.image (· + 1))) := by
  obtain ⟨hbri, hsvlen, hRlen, hRrows, hrow0, hlastcol, hint, hlastrow⟩ :=
    compressed_paths_spec entrances exits path hrow hSnd hTnd hdisj hSsub hTsub
  obtain ⟨hc00, hc0last, hcol0⟩ := compressed_extra_entries entrances exits path
  set sv := survivors path.length entrances exits with hsvdef
  set L := sv.length with hLdef
  set c := matEntry path with hcdef
  set cR := matEntry (compressed_paths entrances exits path).2 with hcRdef
  set Ic := Finset.range L \ I with hIcdef
  have hsvm : ∀ i, i < L → sv.getD i 0 < path.length
      ∧ sv.getD i 0 ∉ entrances ∧ sv.getD i 0 ∉ exits := by
    intro i hi
    have hmem : sv.getD i 0 ∈ sv := by
      rw [List.getD_eq_getElem _ 0 hi]
      exact List.getElem_mem ..
    exact mem_survivors.mp hmem
  have hinj : ∀ i, i < L → ∀ j, j < L →
      sv.getD i 0 = sv.getD j 0 → i = j := by
    intro i hi j hj he
    rw [List.getD_eq_getElem _ 0 hi, List.getD_eq_getElem _ 0 hj] at he
    exact (List.Nodup.getElem_inj_iff
      (survivors_nodup path.length entrances exits)).mp he
  have hrep : ∀ x, x < path.length → x ∉ entrances → x ∉ exits →
      ∃ i, i < L ∧ sv.getD i 0 = x := by
    intro x hx hxS hxT
    have hmem : x ∈ sv := mem_survivors.mpr ⟨hx, hxS, hxT⟩
    obtain ⟨i, hi, hix⟩ := List.mem_iff_getElem.mp hmem
    exact ⟨i, hi, by rw [List.getD_eq_getElem _ 0 hi]; exact hix⟩
  have hIcsub : Ic ⊆ Finset.range L := by
    rw [hIcdef]; exact Finset.sdiff_subset
  have hinjI : ∀ x ∈ I, ∀ y ∈ I,
      sv.getD x 0 = sv.getD y 0 → x = y := by
    intro x hx y hy h
    exact hinj x (Finset.mem_range.mp (hI hx)) y
      (Finset.mem_range.mp (hI hy)) h
  have hinjIc : ∀ x ∈ Ic, ∀ y ∈ Ic,
      sv.getD x 0 = sv.getD y 0 → x = y := by
    intro x hx y hy h
    exact hinj x (Finset.mem_range.mp (hIcsub hx)) y
      (Finset.mem_range.mp (hIcsub hy)) h
  have hinc1 : ∀ x ∈ Ic, ∀ y ∈ Ic, x + 1 = y + 1 → x = y := by
    intro x _ y _ h
    omega
  have hinc2 : ∀ x ∈ I, ∀ y ∈ I, x + 1 = y + 1 → x = y := by
    intro x _ y _ h
    omega
  have hcompl1 : Finset.range path.length
        \ (entrances.toFinset ∪ I.image (fun i => sv.getD i 0))
      = exits.toFinset ∪ Ic.image (fun i => sv.getD i 0) := by
    ext x
    constructor
    · intro hx
      obtain ⟨hxN, hxnot⟩ := Finset.mem_sdiff.mp hx
      have hxN2 := Finset.mem_range.mp hxN
      have hxS : x ∉ entrances := fun h =>
        hxnot (Finset.mem_union_left _ (List.mem_toFinset.mpr h))
      have hxI : x ∉ I.image (fun i => sv.getD i 0) := fun h =>
        hxnot (Finset.mem_union_right _ h)
      by_cases hxT : x ∈ exits
      · exact Finset.mem_union_left _ (List.mem_toFinset.mpr hxT)
      · obtain ⟨i, hi, hix⟩ := hrep x hxN2 hxS hxT
        apply Finset.mem_union_right
        apply Finset.mem_image.mpr
        refine ⟨i, ?_, hix⟩
        rw [hIcdef, Finset.mem_sdiff]
        refine ⟨Finset.mem_range.mpr hi, ?_⟩
        intro hiI
        exact hxI (Finset.mem_image.mpr ⟨i, hiI, hix⟩)
    · intro hx
      rcases Finset.mem_union.mp hx with hx | hx
      · have hxT := List.mem_toFinset.mp hx
        rw [Finset.mem_sdiff]
        refine ⟨Finset.mem_range.mpr (hTsub x hxT), ?_⟩
        intro hcon
        rcases Finset.mem_union.mp hcon with h | h
        · exact hdisj x (List.mem_toFinset.mp h) hxT
        · obtain ⟨i, hiI, hix⟩ := Finset.mem_image.mp h
          have hi : i < L := Finset.mem_range.mp (hI hiI)
          exact (hsvm i hi).2.2 (hix ▸ hxT)
      · obtain ⟨i, hiIc, hix⟩ := Finset.mem_image.mp hx
        have hi : i < L := Finset.mem_range.mp (hIcsub hiIc)
        rw [Finset.mem_sdiff]
        refine ⟨Finset.mem_range.mpr (by rw [← hix]; exact (hsvm i hi).1), ?_⟩
        intro hcon
        rcases Finset.mem_union.mp hcon with h | h
        · rw [← hix] at h
          exact (hsvm i hi).2.1 (List.mem_toFinset.mp h)
        · obtain ⟨j, hjI, hjx⟩ := Finset.mem_image.mp h
          have hj : j < L := Finset.mem_range.mp (hI hjI)
          have hji : j = i := hinj j hj i hi (by rw [hjx, hix])
          rw [hIcdef, Finset.mem_sdiff] at hiIc
          exact hiIc.2 (hji ▸ hjI)
  have h0notI1 : (0 : Nat) ∉ I.image (· + 1) := by
    intro h
    obtain ⟨i, -, hic⟩ := Finset.mem_image.mp h
    omega
  have hcompl2 : Finset.range (L + 2) \ (insert 0 (I.image (· + 1)))
      = Ic.image (· + 1) ∪ {L + 1} := by
    ext x
    constructor
    · intro hx
      obtain ⟨hxlt, hxnot⟩ := Finset.mem_sdiff.mp hx
      have hxlt2 := Finset.mem_range.mp hxlt
      have hx0 : x ≠ 0 := fun h =>
        hxnot (by rw [h]; exact Finset.mem_insert_self 0 _)
      have hxI : x ∉ I.image (· + 1) := fun h =>
        hxnot (Finset.mem_insert_of_mem h)
      obtain ⟨j, rfl⟩ := Nat.exists_eq_succ_of_ne_zero hx0
      by_cases hjL : j = L
      · apply Finset.mem_union_right
        rw [Finset.mem_singleton]
        omega
      · apply Finset.mem_union_left
        apply Finset.mem_image.mpr
        refine ⟨j, ?_, rfl⟩
        rw [hIcdef, Finset.mem_sdiff]
        refine ⟨Finset.mem_range.mpr (by omega), ?_⟩
        intro hjI
        exact hxI (Finset.mem_image.mpr ⟨j, hjI, rfl⟩)
    · intro hx
      rw [Finset.mem_sdiff]
      rcases Finset.mem_union.mp hx with hx | hx
      · obtain ⟨j, hjIc, rfl⟩ := Finset.mem_image.mp hx
        have hj : j < L := Finset.mem_range.mp (hIcsub hjIc)
        refine ⟨Finset.mem_range.mpr (by omega), ?_⟩
        intro hcon
        rcases Finset.mem_insert.mp hcon with h | h
        · omega
        · obtain ⟨i, hiI, hic⟩ := Finset.mem_image.mp h
          have hij : i = j := by omega
          rw [hIcdef, Finset.mem_sdiff] at hjIc
          exact hjIc.2 (hij ▸ hiI)
      · rw [Finset.mem_singleton] at hx
        subst hx
        refine ⟨Finset.mem_range.mpr (by omega), ?_⟩
        intro hcon
        rcases Finset.mem_insert.mp hcon with h | h
        · omega
        · obtain ⟨i, hiI, hic⟩ := Finset.mem_image.mp h
          have hi : i < L := Finset.mem_range.mp (hI hiI)
          omega
  have hdisj1 : Disjoint entrances.toFinset
      (I.image (fun i => sv.getD i 0)) := by
    rw [Finset.disjoint_right]
    intro x hx
    obtain ⟨i, hiI, hix⟩ := Finset.mem_image.mp hx
    have hi : i < L := Finset.mem_range.mp (hI hiI)
    intro hcon
    rw [← hix] at hcon
    exact (hsvm i hi).2.1 (List.mem_toFinset.mp hcon)
  have hdisj2 : Disjoint exits.toFinset
      (Ic.image (fun i => sv.getD i 0)) := by
    rw [Finset.disjoint_right]
    intro x hx
    obtain ⟨i, hiIc, hix⟩ := Finset.mem_image.mp hx
    have hi : i < L := Finset.mem_range.mp (hIcsub hiIc)
    intro hcon
    rw [← hix] at hcon
    exact (hsvm i hi).2.2 (List.mem_toFinset.mp hcon)
  have hdisj4 : Disjoint (Ic.image (· + 1)) ({L + 1} : Finset Nat) := by
    rw [Finset.disjoint_right]
    intro x hx
    rw [Finset.mem_singleton] at hx
    subst hx
    intro hcon
    obtain ⟨i, hiIc, hic⟩ := Finset.mem_image.mp hcon
    have hi : i < L := Finset.mem_range.mp (hIcsub hiIc)
    omega
  have hsplitv : ∀ u,
      (∑ v ∈ exits.toFinset ∪ Ic.image (fun i => sv.getD i 0), c u v)
        = (∑ v ∈ exits.toFinset, c u v)
          + ∑ j ∈ Ic, c u (sv.getD j 0) := by
    intro u
    rw [Finset.sum_union hdisj2, Finset.sum_image hinjIc]
  have hP : capAcross path.length c
      (entrances.toFinset ∪ I.image (fun i => sv.getD i 0))
      = ((∑ u ∈ entrances.toFinset, ∑ v ∈ exits.toFinset, c u v)
        + ∑ u ∈ entrances.toFinset, ∑ j ∈ Ic, c u (sv.getD j 0))
        + ((∑ i ∈ I, ∑ v ∈ exits.toFinset, c (sv.getD i 0) v)
        + ∑ i ∈ I, ∑ j ∈ Ic, c (sv.getD i 0) (sv.getD j 0)) := by
    rw [capAcross, hcompl1, Finset.sum_union hdisj1, Finset.sum_image hinjI]
    congr 1
    · rw [← Finset.sum_add_distrib]
      exact Finset.sum_congr rfl (fun u _ => hsplitv u)
    · rw [← Finset.sum_add_distrib]
      exact Finset.sum_congr rfl (fun i _ => hsplitv _)
  have hQ : capAcross (L + 2) cR (insert 0 (I.image (· + 1)))
      = ((∑ j ∈ Ic, cR 0 (j + 1)) + cR 0 (L + 1))
        + ∑ i ∈ I, ((∑ j ∈ Ic, cR (i + 1) (j + 1)) + cR (i + 1) (L + 1)) := by
    rw [capAcross, hcompl2, Finset.sum_insert h0notI1,
      Finset.sum_image hinc2]
    congr 1
    · rw [Finset.sum_union hdisj4, Finset.sum_image hinc1,
        Finset.sum_singleton]
    · exact Finset.sum_congr rfl (fun i _ => by
        rw [Finset.sum_union hdisj4, Finset.sum_image hinc1,
          Finset.sum_singleton])
  have hA1 : (∑ j ∈ Ic, cR 0 (j + 1))
      = ∑ u ∈ entrances.toFinset, ∑ j ∈ Ic, c u (sv.getD j 0) := by
    have h1 : (∑ j ∈ Ic, cR 0 (j + 1))
        = ∑ j ∈ Ic, ∑ u ∈ entrances.toFinset, c u (sv.getD j 0) := by
      apply Finset.sum_congr rfl
      intro j hj
      have hjL : j < L := Finset.mem_range.mp (hIcsub hj)
      rw [hrow0 j hjL, ← List.sum_toFinset _ hSnd]
    rw [h1, Finset.sum_comm]
  have hA2 : (∑ i ∈ I, ((∑ j ∈ Ic, cR (i + 1) (j + 1)) + cR (i + 1) (L + 1)))
      = (∑ i ∈ I, ∑ j ∈ Ic, c (sv.getD i 0) (sv.getD j 0))
        + ∑ i ∈ I, ∑ v ∈ exits.toFinset, c (sv.getD i 0) v := by
    rw [← Finset.sum_add_distrib]
    apply Finset.sum_congr rfl
    intro i hi
    have hiL : i < L := Finset.mem_range.mp (hI hi)
    congr 1
    · apply Finset.sum_congr rfl
      intro j hj
      have hjL : j < L := Finset.mem_range.mp (hIcsub hj)
      exact hint i j hiL hjL
    · rw [hlastcol i hiL, ← List.sum_toFinset _ hTnd]
  have hbriF : (compressed_paths entrances exits path).1
      = ∑ u ∈ entrances.toFinset, ∑ v ∈ exits.toFinset, c u v := by
    rw [hbri]
    have h1 : ∀ s, (exits.map (fun t => c s t)).sum
        = ∑ v ∈ exits.toFinset, c s v :=
      fun s => (List.sum_toFinset _ hTnd).symm
    have h2 : entrances.map (fun s => (exits.map (fun t => c s t)).sum)
        = entrances.map (fun s => ∑ v ∈ exits.toFinset, c s v) :=
      List.map_congr_left (fun s _ => h1 s)
    rw [h2, ← List.sum_toFinset _ hSnd]
  rw [hP, hQ, hbriF, hc0last, hA1, hA2]
  ring

/-- The value returned by `solution` is the bypass flow plus the flow value
of the final flow computed by the engine on the reduced network. -/
lemma solution_eq_value (entrances exits : List Nat) (path : List (List Int))
    (hrow : ∀ row ∈ path, row.length = path.length)
    (hvals : ∀ row ∈ path, ∀ x ∈ row, 0 ≤ x)
    (hSnd : entrances.Nodup) (hTnd : exits.Nodup)
    (hdisj : ∀ x ∈ entrances, x ∉ exits)
    (hSsub : ∀ s ∈ entrances, s < path.length)
    (hTsub : ∀ t ∈ exits, t < path.length) :
    solution entrances exits path
      = (compressed_paths entrances exits path).1
        + flowValue ((survivors path.length entrances exits).length + 2)
            (finalFlow ((survivors path.length entrances exits).length + 2)
              (matEntry (compressed_paths entrances exits path).2)) := by
  obtain ⟨-, -, hRlen, -, -, -, -, -⟩ :=
    compressed_paths_spec entrances exits path hrow hSnd hTnd hdisj hSsub hTsub
  have hcR := @reduced_nonneg entrances exits path hrow hvals hSsub
  obtain ⟨inv, -, -⟩ :=
    @finalFlow_spec ((survivors path.length entrances exits).length + 2)
      (by omega) _ hcR
  have h1 : solution entrances exits path
      = (compressed_paths entrances exits path).1
        + sinkInflow (compressed_paths entrances exits path).2.length
            (finalFlow (compressed_paths entrances exits path).2.length
              (matEntry (compressed_paths entrances exits path).2)) := rfl
  rw [h1, hRlen]
  congr 1
  exact inv.valeq

/-- Weak-duality direction on the original network: the original minimum
cut is at most the value returned by `solution`, witnessed by the cut
corresponding to the nodes the final breadth-first search can still reach
in the reduced residual network. -/
lemma minCutOrig_le_solution (entrances exits : List Nat)
    (path : List (List Int))
    (hrow : ∀ row ∈ path, row.length = path.length)
    (hvals : ∀ row ∈ path, ∀ x ∈ row, 0 ≤ x)
    (hSnd : entrances.Nodup) (hTnd : exits.Nodup)
    (hdisj : ∀ x ∈ entrances, x ∉ exits)
    (hSsub : ∀ s ∈ entrances, s < path.length)
    (hTsub : ∀ t ∈ exits, t < path.length) :
    minCutOrigW path.length (matEntry path) entrances exits
      ≤ ((solution entrances exits path : Int) : WithTop Int) := by
  rw [solution_eq_value entrances exits path hrow hvals hSnd hTnd hdisj
    hSsub hTsub]
  set sv := survivors path.length entrances exits with hsvdef
  set M := sv.length + 2 with hMdef
  set cR := matEntry (compressed_paths entrances exits path).2 with hcRdef
  set F := finalFlow M cR with hFdef
  have hcR0 : ∀ u v, 0 ≤ cR u v := by
    rw [hcRdef]
    exact reduced_nonneg hrow hvals hSsub
  have hM2 : 2 ≤ M := by
    rw [hMdef]
    omega
  have hM1 : 1 ≤ M := by omega
  obtain ⟨-, hreach_cap, -⟩ := finalFlow_value_eq_minCut hM2 hcR0
  obtain ⟨-, hnone, -⟩ := finalFlow_spec hM2 hcR0
  rw [← hFdef] at hreach_cap hnone
  have hsvm : ∀ i, i < sv.length → sv.getD i 0 < path.length
      ∧ sv.getD i 0 ∉ entrances ∧ sv.getD i 0 ∉ exits := by
    intro i hi
    have hmem : sv.getD i 0 ∈ sv := by
      rw [List.getD_eq_getElem _ 0 hi]
      exact List.getElem_mem ..
    exact mem_survivors.mp hmem
  set Istar := (Finset.range sv.length).filter
    (fun i => (i + 1) ∈ reachSet M cR F) with hIstardef
  have hIstar_sub : Istar ⊆ Finset.range sv.length := Finset.filter_subset _ _
  have hMsub : M - 1 = sv.length + 1 := by
    rw [hMdef]
    omega
  have hAeq : insert 0 (Istar.image (· + 1)) = reachSet M cR F := by
    ext x
    constructor
    · intro hx
      rcases Finset.mem_insert.mp hx with rfl | hx
      · exact zero_mem_reachSet hM1 cR F
      · obtain ⟨i, hiI, hix⟩ := Finset.mem_image.mp hx
        rw [hIstardef] at hiI
        rw [← hix]
        exact (Finset.mem_filter.mp hiI).2
    · intro hx
      have hxlt : x < M := Finset.mem_range.mp (reachSet_subset hM1 cR F hx)
      have hsink : M - 1 ∉ reachSet M cR F := reachSet_no_sink hM1 hnone
      rcases Nat.eq_zero_or_pos x with rfl | hxpos
      · exact Finset.mem_insert_self 0 _
      · obtain ⟨j, rfl⟩ :=
          Nat.exists_eq_succ_of_ne_zero (Nat.pos_iff_ne_zero.mp hxpos)
        have hjL : j < sv.length := by
          by_contra hcon
          push_neg at hcon
          have hj : j = sv.length := by
            rw [hMdef] at hxlt
            omega
          apply hsink
          rw [hMsub, ← hj]
          exact hx
        apply Finset.mem_insert_of_mem
        apply Finset.mem_image.mpr
        refine ⟨j, ?_, rfl⟩
        rw [hIstardef]
        exact Finset.mem_filter.mpr ⟨Finset.mem_range.mpr hjL, hx⟩
  have hAstar_mem : entrances.toFinset ∪ Istar.image (fun i => sv.getD i 0)
      ∈ origCuts path.length entrances exits := by
    rw [origCuts, Finset.mem_filter, Finset.mem_powerset]
    refine ⟨?_, ?_, ?_⟩
    · intro x hx
      rcases Finset.mem_union.mp hx with hx | hx
      · exact Finset.mem_range.mpr (hSsub x (List.mem_toFinset.mp hx))
      · obtain ⟨i, hiI, hix⟩ := Finset.mem_image.mp hx
        have hi : i < sv.length := Finset.mem_range.mp (hIstar_sub hiI)
        rw [← hix]
        exact Finset.mem_range.mpr (hsvm i hi).1
    · intro s hs
      exact Finset.mem_union_left _ (List.mem_toFinset.mpr hs)
    · intro t ht hcon
      rcases Finset.mem_union.mp hcon with h | h
      · exact hdisj t (List.mem_toFinset.mp h) ht
      · obtain ⟨i, hiI, hix⟩ := Finset.mem_image.mp h
        have hi : i < sv.length := Finset.mem_range.mp (hIstar_sub hiI)
        rw [← hix] at ht
        exact (hsvm i hi).2.2 ht
  have hcorr := cut_correspondence entrances exits path hrow hSnd hTnd hdisj
    hSsub hTsub Istar hIstar_sub
  rw [← hsvdef, ← hMdef, ← hcRdef] at hcorr
  rw [hAeq, hreach_cap] at hcorr
  have h1 : minCutOrigW path.length (matEntry path) entrances exits
      ≤ ((capAcross path.length (matEntry path)
          (entrances.toFinset ∪ Istar.image (fun i => sv.getD i 0)) : Int)
            : WithTop Int) :=
    Finset.inf_le hAstar_mem
  rw [hcorr] at h1
  exact h1

/-- Converse direction: every original source/sink cut has capacity at
least the value returned by `solution`, via the cut correspondence and
weak duality in the reduced network. -/
lemma solution_le_minCutOrig (entrances exits : List Nat)
    (path : List (List Int))
    (hrow : ∀ row ∈ path, row.length = path.length)
    (hvals : ∀ row ∈ path, ∀ x ∈ row, 0 ≤ x)
    (hSnd : entrances.Nodup) (hTnd : exits.Nodup)
    (hdisj : ∀ x ∈ entrances, x ∉ exits)
    (hSsub : ∀ s ∈ entrances, s < path.length)
    (hTsub : ∀ t ∈ exits, t < path.length) :
    ((solution entrances exits path : Int) : WithTop Int)
      ≤ minCutOrigW path.length (matEntry path) entrances exits := by
  rw [solution_eq_value entrances exits path hrow hvals hSnd hTnd hdisj
    hSsub hTsub]
  set sv := survivors path.length entrances exits with hsvdef
  set M := sv.length + 2 with hMdef
  set cR := matEntry (compressed_paths entrances exits path).2 with hcRdef
  set F := finalFlow M cR with hFdef
  have hcR0 : ∀ u v, 0 ≤ cR u v := by
    rw [hcRdef]
    exact reduced_nonneg hrow hvals hSsub
  have hM2 : 2 ≤ M := by
    rw [hMdef]
    omega
  obtain ⟨hval_cut, -, -⟩ := finalFlow_value_eq_minCut hM2 hcR0
  rw [← hFdef] at hval_cut
  have hrep : ∀ x, x < path.length → x ∉ entrances → x ∉ exits →
      ∃ i, i < sv.length ∧ sv.getD i 0 = x := by
    intro x hx hxS hxT
    have hmem : x ∈ sv := mem_survivors.mpr ⟨hx, hxS, hxT⟩
    obtain ⟨i, hi, hix⟩ := List.mem_iff_getElem.mp hmem
    exact ⟨i, hi, by rw [List.getD_eq_getElem _ 0 hi]; exact hix⟩
  rw [minCutOrigW]
  apply Finset.le_inf
  intro A hA
  rw [origCuts, Finset.mem_filter, Finset.mem_powerset] at hA
  obtain ⟨hAsub, hAS, hAT⟩ := hA
  show _ ≤ ((capAcross path.length (matEntry path) A : Int) : WithTop Int)
  set I := (Finset.range sv.length).filter (fun i => sv.getD i 0 ∈ A)
    with hIdef
  have hIsub : I ⊆ Finset.range sv.length := Finset.filter_subset _ _
  have hArep : A = entrances.toFinset ∪ I.image (fun i => sv.getD i 0) := by
    ext x
    constructor
    · intro hx
      have hxN : x < path.length := Finset.mem_range.mp (hAsub hx)
      by_cases hxS : x ∈ entrances
      · exact Finset.mem_union_left _ (List.mem_toFinset.mpr hxS)
      · have hxT : x ∉ exits := fun h => hAT x h hx
        obtain ⟨i, hi, hix⟩ := hrep x hxN hxS hxT
        apply Finset.mem_union_right
        apply Finset.mem_image.mpr
        refine ⟨i, ?_, hix⟩
        rw [hIdef]
        refine Finset.mem_filter.mpr ⟨Finset.mem_range.mpr hi, ?_⟩
        rw [hix]
        exact hx
    · intro hx
      rcases Finset.mem_union.mp hx with hx | hx
      · exact hAS x (List.mem_toFinset.mp hx)
      · obtain ⟨i, hiI, hix⟩ := Finset.mem_image.mp hx
        rw [hIdef] at hiI
        rw [← hix]
        exact (Finset.mem_filter.mp hiI).2
  have hcut2 : insert 0 (I.image (· + 1)) ∈ cutsOf M := by
    rw [cutsOf, Finset.mem_filter, Finset.mem_powerset]
    refine ⟨?_, Finset.mem_insert_self 0 _, ?_⟩
    · intro x hx
      rcases Finset.mem_insert.mp hx with rfl | hx
      · exact Finset.mem_range.mpr (by omega)
      · obtain ⟨i, hiI, hix⟩ := Finset.mem_image.mp hx
        have hi : i < sv.length := Finset.mem_range.mp (hIsub hiI)
        rw [← hix]
        apply Finset.mem_range.mpr
        rw [hMdef]
        omega
    · intro hcon
      rcases Finset.mem_insert.mp hcon with h | h
      · rw [hMdef] at h
        omega
      · obtain ⟨i, hiI, hix⟩ := Finset.mem_image.mp h
        have hi : i < sv.length := Finset.mem_range.mp (hIsub hiI)
        rw [hMdef] at hix
        omega
  have hvle : flowValue M F ≤ capAcross M cR (insert 0 (I.image (· + 1))) := by
    have h2 : minCutW M cR
        ≤ ((capAcross M cR (insert 0 (I.image (· + 1))) : Int)
            : WithTop Int) :=
      Finset.inf_le hcut2
    rw [← hval_cut] at h2
    exact WithTop.coe_le_coe.mp h2
  have hcorr := cut_correspondence entrances exits path hrow hSnd hTnd hdisj
    hSsub hTsub I hIsub
  rw [← hsvdef, ← hMdef, ← hcRdef] at hcorr
  rw [hArep, hcorr, WithTop.coe_le_coe]
  exact add_le_add_left hvle _

/-- C1: for every input satisfying the preconditions (square matrix of
non-negative integers, `N ≥ 2`, sources and sinks non-empty disjoint
subsets of `[0, N)`), the value returned by
`solution(entrances, exits, path)` equals the minimum-cut capacity
separating the source set from the sink set in the capacity matrix
(max-flow min-cut for the multi-source/multi-sink problem). -/
theorem claim_C1_min_cut (entrances exits : List Nat) (path : List (List Int))
    (hrow : ∀ row ∈ path, row.length = path.length)
    (hvals : ∀ row ∈ path, ∀ x ∈ row, 0 ≤ x)
    (_hN2 : 2 ≤ path.length)
    (_hSne : entrances ≠ []) (_hTne : exits ≠ [])
    (hSnd : entrances.Nodup) (hTnd : exits.Nodup)
    (hdisj : ∀ x ∈ entrances, x ∉ exits)
    (hSsub : ∀ s ∈ entrances, s < path.length)
    (hTsub : ∀ t ∈ exits, t < path.length) :
    minCutOrigW path.length (matEntry path) entrances exits
      = ((solution entrances exits path : Int) : WithTop Int) :=
  le_antisymm
    (minCutOrig_le_solution entrances exits path hrow hvals hSnd hTnd hdisj
      hSsub hTsub)
    (solution_le_minCutOrig entrances exits path hrow hvals hSnd hTnd hdisj
      hSsub hTsub)

/-- Witness for C1 at scenario 1: on the four-room matrix the brute-force
minimum cut over all source/sink separating subsets equals the computed
answer `6`. -/
theorem claim_C1_witness :
    minCutOrigW 4 (matEntry [[0,7,0,0],[0,0,6,0],[0,0,0,8],[9,0,0,0]])
        [0] [3]
      = ((6 : Int) : WithTop Int) := by
  have h := claim_C1_min_cut [0] [3]
    [[0,7,0,0],[0,0,6,0],[0,0,0,8],[9,0,0,0]]
    (by decide) (by decide) (by decide) (by decide) (by decide) (by decide)
    (by decide) (by decide) (by decide) (by decide)
  have hs : solution [0] [3] [[0,7,0,0],[0,0,6,0],[0,0,0,8],[9,0,0,0]]
      = (6 : Int) := by decide
  rw [hs] at h
  exact h

end EscapePods
